import Mathlib

/-!
Verification development for the turbo test runner (parallel lint & test
runner with content-hash caching).  The JavaScript source is embedded
shallowly: strings are Lean `String`s (lists of characters), the mutable
cache object is an association list threaded explicitly, the filesystem is
a pair of oracles (existence check and content-hash read, `none` modelling
an unreadable file / the JS `null` hash), and each `proc.on('close')`
handler is a pure function from the accumulated output and the in-memory
cache to the updated cache plus a flag recording whether `saveCache` ran.
-/

/-- ASCII whitespace, modelling the characters JavaScript's `trim` and
`\s` treat as whitespace in the outputs handled here. -/
def isWs (c : Char) : Bool :=
  c = ' ' || c = '\t' || c = '\n' || c = '\r' || c = '\x0b' || c = '\x0c'

/-- Character-list prefix test (computable, used for all substring work). -/
def isPre : List Char → List Char → Bool
  | [], _ => true
  | _ :: _, [] => false
  | a :: as, b :: bs => if a = b then isPre as bs else false

/-- Substring search on character lists; `hasSub sub l` is JavaScript's
`l.includes(sub)`. -/
def hasSub (sub : List Char) : List Char → Bool
  | [] => isPre sub []
  | c :: rest => isPre sub (c :: rest) || hasSub sub rest

/-- JavaScript `s.includes(sub)`. -/
def jsIncludes (s sub : String) : Bool := hasSub sub.data s.data

/-- JavaScript `s.startsWith(p)`. -/
def strStarts (s p : String) : Bool := isPre p.data s.data

/-- JavaScript `s.endsWith(p)`. -/
def strEnds (s p : String) : Bool := isPre p.data.reverse s.data.reverse

/-- Trim on character lists: drop leading and trailing whitespace. -/
def jsTrimList (l : List Char) : List Char :=
  ((l.dropWhile isWs).reverse.dropWhile isWs).reverse

/-- JavaScript `s.trim()`. -/
def jsTrim (s : String) : String := ⟨jsTrimList s.data⟩

/-- Split a character list at a separator, keeping empty segments, like
JavaScript's `split`. -/
def splitCh (sep : Char) : List Char → List (List Char)
  | [] => [[]]
  | c :: rest =>
    match splitCh sep rest with
    | [] => [[]]
    | h :: t => if c = sep then [] :: h :: t else (c :: h) :: t

/-- JavaScript `s.split('\n')`. -/
def jsLines (s : String) : List String := (splitCh '\n' s.data).map (fun l => ⟨l⟩)

/-- JavaScript `s.split(sep)` for a one-character separator. -/
def splitStr (sep : Char) (s : String) : List String :=
  (splitCh sep s.data).map (fun l => ⟨l⟩)

/-- Replace the first occurrence of `pat` (JavaScript `String.replace` with
a string pattern replaces only the first occurrence). -/
def replFirst (pat rep : List Char) : List Char → List Char
  | [] => if pat = [] then rep else []
  | c :: rest =>
    if isPre pat (c :: rest) then rep ++ (c :: rest).drop pat.length
    else c :: replFirst pat rep rest

/-- JavaScript `s.replace(pat, rep)` with a plain-string pattern. -/
def jsReplaceFirst (s pat rep : String) : String := ⟨replFirst pat.data rep.data s.data⟩

/-- JavaScript `Set.add` followed by `Array.from`: append if not present,
preserving first-insertion order. -/
def addIfNew (l : List String) (x : String) : List String :=
  if x ∈ l then l else l ++ [x]

/-- JavaScript `arr.slice(-n)`: the last `n` elements (whole list if shorter). -/
def lastN (n : Nat) (l : List String) : List String := l.drop (l.length - n)

/-- JavaScript `arr.join(sep)`. -/
def joinSep (sep : String) : List String → String
  | [] => ""
  | [x] => x
  | x :: y :: rest => x ++ sep ++ joinSep sep (y :: rest)

/-- Index of the first occurrence of `sub` (JavaScript `indexOf`); callers
in the embedded code only use it under an `includes` guard, so the
not-found value is never reached there. -/
def idxOfSub (sub : List Char) : List Char → Nat
  | [] => 0
  | c :: rest => if isPre sub (c :: rest) then 0 else 1 + idxOfSub sub rest

/-- Numeric value of a digit string (JavaScript `Number.parseInt` on the
digit-only capture groups used here). -/
def natOfDigits (l : List Char) : Nat :=
  l.foldl (fun n c => n * 10 + (c.toNat - 48)) 0

/-- JavaScript `s.substring(n)` (code points; the embedded outputs are
treated as one unit per character). -/
def strDrop (s : String) (n : Nat) : String := ⟨s.data.drop n⟩

/-- JavaScript `s.substring(0, n)`. -/
def strTake (s : String) (n : Nat) : String := ⟨s.data.take n⟩

/-- Test for the `/^\d+:\d+/` line-and-column prefix used by the lint
summary filter. -/
def startsLineCol (l : List Char) : Bool :=
  let ds := l.takeWhile Char.isDigit
  decide (ds ≠ []) &&
    (match l.drop ds.length with
     | ':' :: c :: _ => c.isDigit
     | _ => false)

/-- Outcome recorded in a cache entry. -/
inductive CStatus
  | passed
  | failed
deriving DecidableEq, Repr

/-- One persisted cache record: content hash (the JS `null` hash is
`none`), pass/fail status, write time, and the optional error excerpt. -/
structure CacheEntry where
  hash : Option String
  status : CStatus
  timestamp : Nat
  error : Option String
deriving DecidableEq, Repr

/-- The cache mapping, keyed by bare spec path, `source:<path>` or
`lint:<path>`. -/
abbrev CacheMap := List (String × CacheEntry)

/-- Lookup in the cache mapping. -/
def cacheGet (m : CacheMap) (k : String) : Option CacheEntry :=
  match m with
  | [] => none
  | (k', v) :: rest => if k' = k then some v else cacheGet rest k

/-- Overwriting insert into the cache mapping (JS `cache[key] = entry`). -/
def cacheSet (m : CacheMap) (k : String) (v : CacheEntry) : CacheMap :=
  (k, v) :: m.filter (fun p => decide (p.1 ≠ k))

/-- Filesystem oracle: `fileExists` models the `test -f` existence check,
`readHash` models `getFileHash` (MD5 of the content, `none` when the read
fails). -/
structure FS where
  fileExists : String → Bool
  readHash : String → Option String

/-- `getFileHash` from the source: content hash or the null sentinel. -/
def getFileHash (fs : FS) (p : String) : Option String := fs.readHash p

/-- Change type derived from the two-character git status code. -/
inductive ChangeType
  | modified
  | added
  | deleted
  | renamed
  | untracked
deriving DecidableEq, Repr

/-- One parsed `git status --porcelain` line. -/
structure ChangeRecord where
  status : String
  file : String
  type : ChangeType
deriving DecidableEq, Repr

/-- Parse one porcelain status line, as `detectGitChanges` does: the first
two characters are the status code, the trimmed remainder is the path, and
the change type comes from the first status character. -/
def parseGitLine (line : String) : Option ChangeRecord :=
  match line.data with
  | [] => none
  | c :: rest =>
    let status := strTake line 2
    let file : String := ⟨jsTrimList ((c :: rest).drop 2)⟩
    let ty : ChangeType :=
      if c = 'A' || status = "A " then .added
      else if c = 'D' || status = "D " then .deleted
      else if c = 'R' || status = "R " then .renamed
      else if status = "??" then .untracked
      else .modified
    if file = "" then none else some ⟨status, file, ty⟩

/-- `detectGitChanges` applied to the text of `git status --porcelain`. -/
def detectGitChanges (statusOutput : String) : List ChangeRecord :=
  let t := jsTrim statusOutput
  if t = "" then [] else (jsLines t).filterMap parseGitLine

/-- Companion source of a spec file: `file.replace('.spec.ts', '.ts')`. -/
def sourceOf (file : String) : String := jsReplaceFirst file ".spec.ts" ".ts"

/-- Spec counterpart of a source file: `file.replace('.ts', '.spec.ts')`. -/
def specOf (file : String) : String := jsReplaceFirst file ".ts" ".spec.ts"

/-- Candidate spec files from the change list: explicitly changed
`.spec.ts` files plus the spec counterpart of any changed non-spec `.ts`
file, in first-insertion order without duplicates. -/
def allSpecFiles (changes : List ChangeRecord) : List String :=
  changes.foldl
    (fun acc ch =>
      let acc1 := if strEnds ch.file ".spec.ts" then addIfNew acc ch.file else acc
      if strEnds ch.file ".ts" && !strEnds ch.file ".spec.ts" then
        addIfNew acc1 (specOf ch.file)
      else acc1)
    []

/-- Candidates filtered to files that exist on disk. -/
def existingSpecFiles (fs : FS) (changes : List ChangeRecord) : List String :=
  (allSpecFiles changes).filter fs.fileExists

/-- `specChanged` from `getSpecFiles`: no cache entry under the bare path,
or the stored hash differs from the current hash. -/
def specChangedB (fs : FS) (cache : CacheMap) (file : String) : Bool :=
  match cacheGet cache file with
  | none => true
  | some e => decide (e.hash ≠ getFileHash fs file)

/-- `sourceChanged` from `getSpecFiles`: the companion source hash is
readable and there is no `source:` entry or its stored hash differs. -/
def sourceChangedB (fs : FS) (cache : CacheMap) (file : String) : Bool :=
  let sourceFile := sourceOf file
  let sourceHash := getFileHash fs sourceFile
  decide (sourceHash ≠ none) &&
    (match cacheGet cache ("source:" ++ sourceFile) with
     | none => true
     | some e => decide (e.hash ≠ sourceHash))

/-- `shouldRun` for one candidate spec file. -/
def shouldRunSpec (fs : FS) (cache : CacheMap) (file : String) : Bool :=
  specChangedB fs cache file || sourceChangedB fs cache file

/-- Run-versus-skip partition produced by the selection engine. -/
structure SelectionResult where
  toRun : List String
  cached : List String
deriving DecidableEq, Repr

/-- `getSpecFiles`: partition the existing candidates by `shouldRun`. -/
def getSpecFiles (fs : FS) (changes : List ChangeRecord) (cache : CacheMap) :
    SelectionResult :=
  let ex := existingSpecFiles fs changes
  ⟨ex.filter (shouldRunSpec fs cache), ex.filter (fun f => !shouldRunSpec fs cache f)⟩

/-- Result of `generateLintCommand`. -/
structure LintResult where
  command : Option String
  toRun : List String
  cached : List String
deriving DecidableEq, Repr

/-- Lint candidates: changed files with a `.html` or `.ts` extension, in
first-insertion order without duplicates. -/
def lintCandidates (changes : List ChangeRecord) : List String :=
  changes.foldl
    (fun acc ch =>
      if strEnds ch.file ".html" || strEnds ch.file ".ts" then addIfNew acc ch.file
      else acc)
    []

/-- Lint `shouldRun`: no `lint:` entry or stored hash differs from the
current hash; the stored status is not consulted. -/
def shouldRunLint (fs : FS) (cache : CacheMap) (file : String) : Bool :=
  match cacheGet cache ("lint:" ++ file) with
  | none => true
  | some e => decide (e.hash ≠ getFileHash fs file)

/-- `generateLintCommand`: batched eslint invocation with `--fix` over the
files selected to run. -/
def generateLintCommand (fs : FS) (changes : List ChangeRecord) (cache : CacheMap) :
    LintResult :=
  if changes = [] then ⟨none, [], []⟩
  else
    let files := lintCandidates changes
    if files = [] then ⟨none, [], []⟩
    else
      let toRun := files.filter (shouldRunLint fs cache)
      let cached := files.filter (fun f => !shouldRunLint fs cache f)
      if toRun = [] then ⟨none, toRun, cached⟩
      else ⟨some ("npx eslint " ++ joinSep " " toRun ++ " --fix"), toRun, cached⟩

/-- `generateNgTestCommand`: one `--include=` filter per selected spec
file, `--watch=false`, and the parallel karma configuration; `none` when
nothing is selected. -/
def generateNgTestCommand (specFiles cachedFiles : List String) : Option String :=
  if specFiles = [] && cachedFiles = [] then none
  else if specFiles = [] then none
  else
    some ("ng test " ++
      joinSep " " (specFiles.map (fun f => "--include=" ++ f)) ++
      " --watch=false --karma-config=karma-parallel.conf.js")

/-- Match of `TOTAL:\s*(\d+)\s*FAILED,\s*(\d+)\s*SUCCESS` anchored at the
head of the list, returning the two digit captures. -/
def matchTotalAt (l : List Char) : Option (List Char × List Char) :=
  if isPre "TOTAL:".data l then
    let r1 := (l.drop 6).dropWhile isWs
    let d1 := r1.takeWhile Char.isDigit
    if d1 = [] then none
    else
      let r2 := (r1.drop d1.length).dropWhile isWs
      if isPre "FAILED,".data r2 then
        let r3 := (r2.drop 7).dropWhile isWs
        let d2 := r3.takeWhile Char.isDigit
        if d2 = [] then none
        else
          let r4 := (r3.drop d2.length).dropWhile isWs
          if isPre "SUCCESS".data r4 then some (d1, d2) else none
      else none
  else none

/-- Leftmost match of the structured `TOTAL: <failed> FAILED, <success>
SUCCESS` aggregate line anywhere in the output. -/
def findTotalAux : List Char → Option (List Char × List Char)
  | [] => none
  | c :: rest =>
    match matchTotalAt (c :: rest) with
    | some r => some r
    | none => findTotalAux rest

/-- The `summaryMatch` test of the classifier. -/
def findTotal (s : String) : Option (List Char × List Char) := findTotalAux s.data

/-- Error-section walk of the summary branch: start capturing at the first
line containing `FAILED` (but not `Coverage`/`TOTAL:`), stop at the
`TOTAL:` or `Coverage summary` line. -/
def errorSectionLoop : List String → Bool → List String
  | [], _ => []
  | line :: rest, cap =>
    let cap1 :=
      if jsIncludes line "FAILED" && !jsIncludes line "Coverage" &&
          !jsIncludes line "TOTAL:" && !cap then true
      else cap
    if cap1 && (jsIncludes line "TOTAL:" || jsIncludes line "Coverage summary") then []
    else if cap1 then line :: errorSectionLoop rest cap1
    else errorSectionLoop rest cap1

/-- Failure text built in the summary branch. -/
def summaryReason (errorMsg : String) (d1 d2 : List Char) : String :=
  let total := natOfDigits d1 + natOfDigits d2
  let sec := errorSectionLoop (jsLines errorMsg) false
  let base := "TOTAL: " ++ toString total ++ ", FAILED: " ++ (⟨d1⟩ : String) ++
    ", SUCCESS: " ++ (⟨d2⟩ : String)
  if sec.length > 0 then base ++ "\n" ++ joinSep "\n" sec else base

/-- Compiler-diagnostic marker test. -/
def hasCompilationError (errorMsg : String) : Bool :=
  jsIncludes errorMsg "[ERROR] TS" ||
    jsIncludes errorMsg "Application bundle generation failed"

/-- Helper for the `\[plugin.*?\]\s*$` tail: some `]` whose suffix is all
whitespace, reachable without crossing a line break. -/
def pluginCloseWsEnd : List Char → Bool
  | [] => false
  | c :: rest =>
    (decide (c = ']') && rest.all isWs) ||
      (decide (c ≠ '\n') && decide (c ≠ '\r') && pluginCloseWsEnd rest)

/-- Does `\s*\[plugin.*?\]\s*$` match starting exactly here and running to
the end of the list. -/
def pluginMatchAt (l : List Char) : Bool :=
  let l' := l.dropWhile isWs
  isPre "[plugin".data l' && pluginCloseWsEnd (l'.drop 7)

/-- `errorPart.replace(/\s*\[plugin.*?\]\s*$/, '')`: cut at the leftmost
position where the plugin-suffix pattern matches through to the end. -/
def stripPlugin : List Char → List Char
  | [] => []
  | c :: rest => if pluginMatchAt (c :: rest) then [] else c :: stripPlugin rest

/-- `nextLine.split(':').slice(0, 3).join(':')`. -/
def locPath (t : String) : String := joinSep ":" ((splitStr ':' t).take 3)

/-- A file-location line: trimmed, starts with `src/` and contains a colon. -/
def isLocLine (l : String) : Bool :=
  strStarts (jsTrim l) "src/" && jsIncludes (jsTrim l) ":"

/-- Search the lookahead window (the next lines up to index `i+10`
exclusive, i.e. at most nine lines) for a file-location line. -/
def findLoc (rest : List String) : Option String :=
  ((rest.take 9).find? isLocLine).map (fun l => locPath (jsTrim l))

/-- Cleaned diagnostic message of one `[ERROR] TS` line: everything after
`[ERROR]` plus one character, trimmed, with a trailing `[plugin …]`
removed, trimmed again. -/
def cleanErrorOf (line : String) : String :=
  let errorIdx := idxOfSub "[ERROR]".data line.data
  let errorPart := jsTrim (strDrop line (errorIdx + 8))
  jsTrim ⟨stripPlugin errorPart.data⟩

/-- One iteration of the diagnostic-extraction loop on a matching line:
push the cleaned message when non-empty, then the location line found in
the lookahead window when there is one. -/
def tsStep (line : String) (rest : List String) (acc : List String) : List String :=
  let acc1 := if cleanErrorOf line = "" then acc else acc ++ [cleanErrorOf line]
  match findLoc rest with
  | some p => acc1 ++ ["  at " ++ p]
  | none => acc1

/-- Diagnostic-extraction loop of the compile branch: for each line with
`[ERROR] TS`, push the cleaned message, then the first location line found
in the lookahead window, and stop once six entries are collected. -/
def tsLoop : List String → List String → List String
  | [], acc => acc
  | line :: rest, acc =>
    if jsIncludes line "[ERROR] TS" then
      let acc2 := tsStep line rest acc
      if acc2.length ≥ 6 then acc2 else tsLoop rest acc2
    else tsLoop rest acc

/-- `tsErrorLines` built by the compile branch of the classifier. -/
def tsErrorLines (errorMsg : String) : List String := tsLoop (jsLines errorMsg) []

/-- Fallback of the compile branch when no diagnostic was extracted. -/
def compileFallback (errorMsg : String) : String :=
  let errorLines :=
    ((jsLines errorMsg).filter (fun l => jsIncludes l "ERROR" || jsIncludes l "src/")).take 5
  if errorLines.length > 0 then joinSep "\n" errorLines
  else "Compilation failed - check TypeScript errors"

/-- `failureReasons['Test']`: the full classification chain for a failed
test process — structured summary, else compiler diagnostics, else
incomplete/interrupted detection, else the last non-transient lines. -/
def testFailureReason (errorMsg : String) : String :=
  match findTotal errorMsg with
  | some (d1, d2) => summaryReason errorMsg d1 d2
  | none =>
    if hasCompilationError errorMsg then
      let ts := tsErrorLines errorMsg
      if ts.length > 0 then joinSep "\n" ts else compileFallback errorMsg
    else
      let errorLines := (jsLines errorMsg).filter
        (fun l => decide (jsTrim l ≠ "") && !jsIncludes l "Building")
      if jsIncludes errorMsg "Building" || errorLines.length = 0 then
        "Test execution incomplete or interrupted"
      else
        let summary := joinSep "\n" (lastN 5 errorLines)
        if summary = "" then "Test execution failed - no summary found" else summary

/-- Lookahead of `filterErrorsByFile`: scan the next lines (window of
fourteen) for a reference to the target file, stopping early at the next
per-case failure or execution-summary marker. -/
def laScan (filePath : String) : List String → Bool
  | [] => false
  | l :: rest =>
    if jsIncludes l filePath then true
    else if jsIncludes l "Chrome Headless" &&
        (jsIncludes l "FAILED" || jsIncludes l "Executed") then false
    else laScan filePath rest

/-- Block walk of `filterErrorsByFile` with the `inRelevantSection` flag. -/
def febfLoop (filePath : String) : List String → Bool → List String
  | [], _ => []
  | line :: rest, inRel =>
    if jsIncludes line "FAILED" && jsIncludes line "Chrome Headless" then
      if laScan filePath (rest.take 14) then line :: febfLoop filePath rest true
      else febfLoop filePath rest false
    else if jsIncludes line "Executed" && jsIncludes line "Chrome Headless" then
      (if inRel || jsIncludes line filePath then [line] else []) ++
        febfLoop filePath rest false
    else if inRel then
      if jsIncludes line ".spec.ts" && !jsIncludes line filePath then
        febfLoop filePath rest false
      else line :: febfLoop filePath rest true
    else febfLoop filePath rest inRel

/-- `filterErrorsByFile`: keep the `TOTAL:` line plus the blocks that
reference the target path; fall back to the full text when nothing
file-specific was found. -/
def filterErrorsByFile (fullError filePath : String) : String :=
  let lines := jsLines fullError
  let totalPart :=
    match lines.find? (fun l => jsIncludes l "TOTAL:") with
    | some t => [t]
    | none => []
  let filteredLines := totalPart ++ febfLoop filePath lines false
  if filteredLines.length ≤ 1 then fullError else joinSep "\n" filteredLines

/-- Suffix alternatives `\.(?:spec\.)?ts` of the compile-error path regex. -/
def sufLenSpecTs (l : List Char) : Option Nat :=
  if isPre ".spec.ts".data l then some 8
  else if isPre ".ts".data l then some 3
  else none

/-- Suffix `\.ts` of the lint path regex. -/
def sufLenTs (l : List Char) : Option Nat :=
  if isPre ".ts".data l then some 3 else none

/-- Greedy split point for `[^…]+` followed by a suffix alternative: the
largest `k ≥ 1` at which a suffix alternative matches. -/
def bestKAux (run : List Char) (sufLen : List Char → Option Nat) : Nat → Option Nat
  | 0 => none
  | k + 1 =>
    if (sufLen (run.drop (k + 1))).isSome then some (k + 1) else bestKAux run sufLen k

/-- Entry point of the greedy split search. -/
def bestK (run : List Char) (sufLen : List Char → Option Nat) : Option Nat :=
  bestKAux run sufLen run.length

/-- Character class `[^\s:]` of the compile-error path regex. -/
def nonWsColon (c : Char) : Bool := !isWs c && decide (c ≠ ':')

/-- One attempted match of `src\/[^\s:]+\.(?:spec\.)?ts` at the head of
the list, returning the matched characters and the consumed length. -/
def trySrcSpecMatch (l : List Char) : Option (List Char × Nat) :=
  if isPre "src/".data l then
    let run := (l.drop 4).takeWhile nonWsColon
    match bestK run sufLenSpecTs with
    | some k =>
      match sufLenSpecTs (run.drop k) with
      | some s => some ("src/".data ++ run.take (k + s), 4 + k + s)
      | none => none
    | none => none
  else none

/-- Global scan for the compile-error path regex (fuel is the list length;
every step consumes at least one character, so it never runs out). -/
def scanSrcAux : Nat → List Char → List (List Char)
  | 0, _ => []
  | _ + 1, [] => []
  | fuel + 1, c :: rest =>
    match trySrcSpecMatch (c :: rest) with
    | some (m, n) => m :: scanSrcAux fuel ((c :: rest).drop n)
    | none => scanSrcAux fuel rest

/-- All matches of the compile-error path regex in one line. -/
def scanSrcMatches (l : List Char) : List (List Char) := scanSrcAux l.length l

/-- `filesInError`: every path the compile branch extracts from the raw
output, per line, deduplicated in first-insertion order. -/
def filesInError (errorMsg : String) : List String :=
  (jsLines errorMsg).foldl
    (fun acc line => (scanSrcMatches line.data).foldl (fun a m => addIfNew a ⟨m⟩) acc)
    []

/-- First alternative `[A-Z]:\\[^:]+\.ts` of the lint path regex at the
head of the list. -/
def tryLintAlt1 (l : List Char) : Option (List Char) :=
  match l with
  | c1 :: c2 :: c3 :: rest =>
    if decide ('A' ≤ c1) && decide (c1 ≤ 'Z') && decide (c2 = ':') && decide (c3 = '\\') then
      let run := rest.takeWhile (fun c => decide (c ≠ ':'))
      match bestK run sufLenTs with
      | some k =>
        match sufLenTs (run.drop k) with
        | some s => some (c1 :: c2 :: c3 :: run.take (k + s))
        | none => none
      | none => none
    else none
  | _ => none

/-- Second alternative `src\/[^:]+\.ts` of the lint path regex at the head
of the list. -/
def tryLintAlt2 (l : List Char) : Option (List Char) :=
  if isPre "src/".data l then
    let run := (l.drop 4).takeWhile (fun c => decide (c ≠ ':'))
    match bestK run sufLenTs with
    | some k =>
      match sufLenTs (run.drop k) with
      | some s => some ("src/".data ++ run.take (k + s))
      | none => none
    | none => none
  else none

/-- Leftmost (non-global) match of the lint path regex in one line, first
alternative preferred at equal positions. -/
def firstLintMatch : List Char → Option (List Char)
  | [] => none
  | c :: rest =>
    match tryLintAlt1 (c :: rest) with
    | some m => some m
    | none =>
      match tryLintAlt2 (c :: rest) with
      | some m => some m
      | none => firstLintMatch rest

/-- JavaScript `arr.findIndex(pred)` (as an `Option`). -/
def jsFindIndex (p : String → Bool) : List String → Option Nat
  | [] => none
  | a :: rest => if p a then some 0 else (jsFindIndex p rest).map (· + 1)

/-- Windows-path normalization of the lint failure extraction: split at
backslashes and rejoin from the `src` segment with forward slashes. -/
def normalizeLintPath (p : String) : String :=
  if jsIncludes p "\\" then
    let parts := splitStr '\\' p
    match jsFindIndex (fun part => decide (part = "src")) parts with
    | some i => joinSep "/" (parts.drop i)
    | none => p
  else p

/-- Failed-file set extracted from a failed lint process's output. -/
def lintFailedFiles (errorMsg : String) : List String :=
  ((jsLines errorMsg).filter (fun l => decide (jsTrim l ≠ ""))).foldl
    (fun acc line =>
      match firstLintMatch line.data with
      | some m => addIfNew acc (normalizeLintPath ⟨m⟩)
      | none => acc)
    []

/-- Summary text for a failed lint process: the lines with diagnostic
markers, else the last five non-empty lines. -/
def lintFailureReason (errorMsg : String) : String :=
  let errorLines := (jsLines errorMsg).filter (fun l => decide (jsTrim l ≠ ""))
  let details := errorLines.filter
    (fun l => jsIncludes l "error" || jsIncludes l "warning" || jsIncludes l "✖" ||
      startsLineCol l.data)
  if details.length > 0 then joinSep "\n" details
  else joinSep "\n" (lastN 5 errorLines)

/-- Text form of an exit code in the fallback message (`null` for a
signal-terminated process). -/
def exitCodeStr : Option Int → String
  | none => "null"
  | some i => toString i

/-- `errorOutputs[name]?.trim() || 'Process exited with code …'`. -/
def effectiveErrorMsg (output : String) (code : Option Int) : String :=
  let t := jsTrim output
  if t = "" then "Process exited with code " ++ exitCodeStr code else t

/-- One write of a failed spec entry plus its companion `source:` entry
(the shared body of both failed-test cache loops): the spec entry carries
the per-file filtered excerpt, each write is skipped when hashing fails. -/
def failWriteStep (fs : FS) (now : Nat) (reason : String) (c : CacheMap)
    (file : String) : CacheMap :=
  let c1 :=
    match getFileHash fs file with
    | some h =>
      cacheSet c file
        ⟨some h, .failed, now,
          some (filterErrorsByFile (if reason = "" then "Test failed" else reason) file)⟩
    | none => c
  let src := sourceOf file
  match getFileHash fs src with
  | some sh => cacheSet c1 ("source:" ++ src) ⟨some sh, .failed, now, none⟩
  | none => c1

/-- Compile-error variant of the failed-test cache loop body: write only
when the file's path was extracted from the diagnostic text. -/
def compileCacheStep (fs : FS) (now : Nat) (errorMsg reason : String) (c : CacheMap)
    (file : String) : CacheMap :=
  if file ∈ filesInError errorMsg then failWriteStep fs now reason c file else c

/-- Close handler for a failed test process: classify, and when the
outcome is cacheable write failed entries — only for paths extracted from
the diagnostic text on a compilation error, for every attempted file
otherwise — then save. Returns the cache and whether `saveCache` ran. -/
def handleTestFailure (fs : FS) (now : Nat) (errorMsg : String)
    (attempted : List String) (cache : CacheMap) : CacheMap × Bool :=
  let reason := testFailureReason errorMsg
  let shouldCache :=
    decide (reason ≠ "") && !jsIncludes reason "Test execution incomplete or interrupted"
  if shouldCache then
    if hasCompilationError errorMsg then
      (attempted.foldl (compileCacheStep fs now errorMsg reason) cache, true)
    else
      (attempted.foldl (failWriteStep fs now reason) cache, true)
  else (cache, false)

/-- One write of a passed spec entry plus its companion `source:` entry. -/
def passWriteStep (fs : FS) (now : Nat) (c : CacheMap) (file : String) : CacheMap :=
  let c1 :=
    match getFileHash fs file with
    | some h => cacheSet c file ⟨some h, .passed, now, none⟩
    | none => c
  let src := sourceOf file
  match getFileHash fs src with
  | some sh => cacheSet c1 ("source:" ++ src) ⟨some sh, .passed, now, none⟩
  | none => c1

/-- Close handler for a passed test process: mark every attempted spec
file passed, and its companion source when readable, then save. -/
def handleTestPassed (fs : FS) (now : Nat) (attempted : List String)
    (cache : CacheMap) : CacheMap × Bool :=
  if attempted.length > 0 then
    (attempted.foldl (passWriteStep fs now) cache, true)
  else (cache, false)

/-- One write of a passed `lint:` entry. -/
def lintPassStep (fs : FS) (now : Nat) (c : CacheMap) (file : String) : CacheMap :=
  match getFileHash fs file with
  | some h => cacheSet c ("lint:" ++ file) ⟨some h, .passed, now, none⟩
  | none => c

/-- Close handler for a passed lint process: mark every attempted lint
file passed, then save. -/
def handleLintPassed (fs : FS) (now : Nat) (attempted : List String)
    (cache : CacheMap) : CacheMap × Bool :=
  if attempted.length > 0 then
    (attempted.foldl (lintPassStep fs now) cache, true)
  else (cache, false)

/-- One write of a `lint:` entry after a failed lint process: failed
exactly when the path is in the extracted failed-file set. -/
def lintFailStep (fs : FS) (now : Nat) (failedFiles : List String) (reason : String)
    (c : CacheMap) (file : String) : CacheMap :=
  match getFileHash fs file with
  | some h =>
    let hasFailed := decide (file ∈ failedFiles)
    cacheSet c ("lint:" ++ file)
      ⟨some h, if hasFailed then .failed else .passed, now,
        if hasFailed then some reason else none⟩
  | none => c

/-- Close handler for a failed lint process: each attempted file's `lint:`
entry is failed exactly when its path is in the extracted failed-file set,
passed otherwise, then save. -/
def handleLintFailure (fs : FS) (now : Nat) (errorMsg : String)
    (attempted : List String) (cache : CacheMap) : CacheMap × Bool :=
  (attempted.foldl
    (lintFailStep fs now (lintFailedFiles errorMsg) (lintFailureReason errorMsg))
    cache, true)

/-- Which tracked process an exit event belongs to. -/
inductive ProcName
  | lint
  | test
deriving DecidableEq, Repr

/-- One process-exit notification: which process, its exit code (`none`
models a signal, which the handler treats as nonzero), the accumulated
output, and the wall-clock value used for timestamps. -/
structure ProcEvent where
  name : ProcName
  exitCode : Option Int
  output : String
  now : Nat

/-- In-memory cache plus the durably persisted mapping. -/
structure RunState where
  cache : CacheMap
  persisted : CacheMap

/-- Configuration of one `executeParallelCommands` run. -/
structure RunConfig where
  fs : FS
  changes : List ChangeRecord
  disableLint : Bool
  disableCache : Bool
  persisted : CacheMap

/-- Apply one close event: run the matching handler when that process was
actually launched; a save rewrites the persisted mapping in full from the
in-memory cache. -/
def applyEvent (fs : FS) (lintActive testActive : Bool)
    (lintFiles testFiles : List String) (st : RunState) (ev : ProcEvent) : RunState :=
  match ev.name with
  | .lint =>
    if lintActive then
      let r :=
        if ev.exitCode ≠ some 0 then
          handleLintFailure fs ev.now (effectiveErrorMsg ev.output ev.exitCode) lintFiles st.cache
        else handleLintPassed fs ev.now lintFiles st.cache
      ⟨r.1, if r.2 then r.1 else st.persisted⟩
    else st
  | .test =>
    if testActive then
      let r :=
        if ev.exitCode ≠ some 0 then
          handleTestFailure fs ev.now (effectiveErrorMsg ev.output ev.exitCode) testFiles st.cache
        else handleTestPassed fs ev.now testFiles st.cache
      ⟨r.1, if r.2 then r.1 else st.persisted⟩
    else st

/-- In-memory cache the run starts from: empty when the cache is bypassed,
the persisted mapping otherwise. -/
def initialCache (cfg : RunConfig) : CacheMap :=
  if cfg.disableCache then [] else cfg.persisted

/-- Test selection computed by the run (`getSpecFiles(changes,
disableCache ? {} : cache)`). -/
def runSpecSelection (cfg : RunConfig) : SelectionResult :=
  getSpecFiles cfg.fs cfg.changes (if cfg.disableCache then [] else initialCache cfg)

/-- Lint result computed by the run. -/
def runLintResult (cfg : RunConfig) : LintResult :=
  if cfg.disableLint then ⟨none, [], []⟩
  else generateLintCommand cfg.fs cfg.changes (if cfg.disableCache then [] else initialCache cfg)

/-- Test command computed by the run. -/
def runTestCmd (cfg : RunConfig) : Option String :=
  generateNgTestCommand (runSpecSelection cfg).toRun
    (if cfg.disableCache then [] else (runSpecSelection cfg).cached)

/-- Cache state after the run: when no command is generated the run
returns before spawning anything (all-cached or nothing-to-do) and the
persisted mapping is untouched; otherwise each close event's handler runs
in arrival order. -/
def runModel (cfg : RunConfig) (events : List ProcEvent) : RunState :=
  let lintR := runLintResult cfg
  let testCmd := runTestCmd cfg
  if lintR.command = none ∧ testCmd = none then ⟨initialCache cfg, cfg.persisted⟩
  else
    events.foldl
      (applyEvent cfg.fs lintR.command.isSome testCmd.isSome lintR.toRun
        (runSpecSelection cfg).toRun)
      ⟨initialCache cfg, cfg.persisted⟩

lemma strMk_data (l : List Char) : (⟨l⟩ : String).data = l := rfl

lemma strDataAppend (a b : String) : (a ++ b).data = a.data ++ b.data := by
  cases a
  cases b
  rfl

lemma strExt {a b : String} (h : a.data = b.data) : a = b := by
  cases a
  cases b
  exact congrArg String.mk h

lemma isPre_iff (p l : List Char) : isPre p l = true ↔ ∃ t, l = p ++ t := by
  induction p generalizing l with
  | nil =>
    simp only [isPre, List.nil_append]
    exact ⟨fun _ => ⟨l, rfl⟩, fun _ => trivial⟩
  | cons a as ih =>
    cases l with
    | nil =>
      simp [isPre]
    | cons b bs =>
      by_cases hab : a = b
      · subst hab
        simp [isPre, ih]
      · constructor
        · intro h
          rw [isPre, if_neg hab] at h
          exact absurd h (by simp)
        · rintro ⟨t, h⟩
          injection h with h1 _
          exact absurd h1.symm hab

lemma isPre_append_self (p t : List Char) : isPre p (p ++ t) = true :=
  (isPre_iff p (p ++ t)).mpr ⟨t, rfl⟩

lemma isPre_refl (p : List Char) : isPre p p = true := by
  simpa using isPre_append_self p []

lemma hasSub_iff (sub l : List Char) : hasSub sub l = true ↔ ∃ p t, l = p ++ sub ++ t := by
  induction l with
  | nil =>
    simp only [hasSub, isPre_iff]
    constructor
    · rintro ⟨t, h⟩
      exact ⟨[], t, by simp [h]⟩
    · rintro ⟨p, t, h⟩
      rcases List.append_eq_nil.mp h.symm with ⟨h1, h2⟩
      rcases List.append_eq_nil.mp h1 with ⟨_, h3⟩
      exact ⟨[], by simp [h3]⟩
  | cons c rest ih =>
    simp only [hasSub, Bool.or_eq_true, isPre_iff, ih]
    constructor
    · rintro (⟨t, h⟩ | ⟨p, t, h⟩)
      · exact ⟨[], t, by simp [h]⟩
      · exact ⟨c :: p, t, by simp [h]⟩
    · rintro ⟨p, t, h⟩
      cases p with
      | nil => exact Or.inl ⟨t, by simpa using h⟩
      | cons x xs =>
        injection h with h1 h2
        exact Or.inr ⟨xs, t, h2⟩

lemma jsIncludes_iff (s sub : String) :
    jsIncludes s sub = true ↔ ∃ p t, s.data = p ++ sub.data ++ t := by
  exact hasSub_iff sub.data s.data

lemma cacheGet_set_self (m : CacheMap) (k : String) (v : CacheEntry) :
    cacheGet (cacheSet m k v) k = some v := by
  simp [cacheGet, cacheSet]

lemma cacheGet_filter_ne (m : CacheMap) (k k'' : String) (h : k'' ≠ k) :
    cacheGet (m.filter (fun p => decide (p.1 ≠ k))) k'' = cacheGet m k'' := by
  induction m with
  | nil => rfl
  | cons p rest ih =>
    obtain ⟨k', v'⟩ := p
    rw [List.filter_cons]
    by_cases hk : k' = k
    · subst hk
      have hne : k' ≠ k'' := fun he => h he.symm
      simp only [decide_eq_true_eq]
      rw [if_neg (by simp)]
      rw [cacheGet, if_neg hne] at *
      exact ih
    · simp only [decide_eq_true_eq]
      rw [if_pos (by simpa using hk)]
      by_cases he : k' = k''
      · subst he
        simp [cacheGet]
      · rw [cacheGet, if_neg he, cacheGet, if_neg he]
        exact ih

lemma cacheGet_set_ne (m : CacheMap) (k k'' : String) (v : CacheEntry) (h : k'' ≠ k) :
    cacheGet (cacheSet m k v) k'' = cacheGet m k'' := by
  rw [cacheSet, cacheGet, if_neg (fun he => h he.symm)]
  exact cacheGet_filter_ne m k k'' h

lemma cacheGet_set_cases (m : CacheMap) (k k'' : String) (v : CacheEntry) (e : CacheEntry)
    (h : cacheGet (cacheSet m k v) k'' = some e) :
    (k'' = k ∧ e = v) ∨ cacheGet m k'' = some e := by
  by_cases hk : k'' = k
  · subst hk
    rw [cacheGet_set_self] at h
    exact Or.inl ⟨rfl, (Option.some_inj.mp h).symm⟩
  · rw [cacheGet_set_ne m k k'' v hk] at h
    exact Or.inr h

lemma dropWhile_head_false (q : Char → Bool) :
    ∀ (l : List Char) (c : Char) (t : List Char), l.dropWhile q = c :: t → q c = false := by
  intro l
  induction l with
  | nil =>
    intro c t h
    simp [List.dropWhile] at h
  | cons a as ih =>
    intro c t h
    by_cases ha : q a = true
    · rw [List.dropWhile_cons, if_pos ha] at h
      exact ih c t h
    · rw [List.dropWhile_cons, if_neg ha] at h
      injection h with h1 _
      subst h1
      simpa using ha

lemma exists_dropWhile_append (q : Char → Bool) (l : List Char) :
    ∃ p, l = p ++ l.dropWhile q := by
  induction l with
  | nil => exact ⟨[], rfl⟩
  | cons a as ih =>
    by_cases ha : q a = true
    · obtain ⟨p, hp⟩ := ih
      refine ⟨a :: p, ?_⟩
      rw [List.dropWhile_cons, if_pos ha, List.cons_append, ← hp]
    · exact ⟨[], by rw [List.dropWhile_cons, if_neg ha, List.nil_append]⟩

lemma jsTrimList_head (l : List Char) (c : Char) (t : List Char)
    (h : jsTrimList l = c :: t) : isWs c = false := by
  unfold jsTrimList at h
  obtain ⟨p, hp⟩ := exists_dropWhile_append isWs (l.dropWhile isWs).reverse
  have hX : l.dropWhile isWs = (c :: t) ++ p.reverse := by
    have h2 := congrArg List.reverse hp
    rw [List.reverse_reverse, List.reverse_append] at h2
    rw [h2, h]
  exact dropWhile_head_false isWs l c (t ++ p.reverse) (by rw [hX]; rfl)

lemma splitCh_ne_nil (sep : Char) (l : List Char) : splitCh sep l ≠ [] := by
  cases l with
  | nil => simp [splitCh]
  | cons c rest =>
    simp only [splitCh]
    cases h : splitCh sep rest with
    | nil => simp
    | cons a b => by_cases hc : c = sep <;> simp [hc]

lemma splitCh_head_prefix (sep : Char) :
    ∀ (l h : List Char) (t : List (List Char)), splitCh sep l = h :: t → ∃ r, l = h ++ r := by
  intro l
  induction l with
  | nil =>
    intro h t he
    simp only [splitCh] at he
    injection he with e1 _
    exact ⟨[], by simp [← e1]⟩
  | cons c rest ih =>
    intro h t he
    cases hs : splitCh sep rest with
    | nil => exact absurd hs (splitCh_ne_nil sep rest)
    | cons h' t' =>
      simp only [splitCh, hs] at he
      by_cases hc : c = sep
      · rw [if_pos hc] at he
        injection he with e1 _
        exact ⟨c :: rest, by simp [← e1]⟩
      · rw [if_neg hc] at he
        injection he with e1 _
        obtain ⟨r, hr⟩ := ih h' t' hs
        exact ⟨r, by simp [← e1, hr]⟩

lemma mem_splitCh (sep : Char) (l x : List Char) (hx : x ∈ splitCh sep l) :
    ∃ p t, l = p ++ x ++ t := by
  induction l with
  | nil =>
    simp only [splitCh, List.mem_singleton] at hx
    exact ⟨[], [], by simp [hx]⟩
  | cons c rest ih =>
    cases hs : splitCh sep rest with
    | nil => exact absurd hs (splitCh_ne_nil sep rest)
    | cons h' t' =>
      simp only [splitCh, hs] at hx
      by_cases hc : c = sep
      · rw [if_pos hc] at hx
        rcases List.mem_cons.mp hx with rfl | hx'
        · exact ⟨[], c :: rest, rfl⟩
        · obtain ⟨p, t, hpt⟩ := ih (by rw [hs]; exact hx')
          exact ⟨c :: p, t, by simp [hpt]⟩
      · rw [if_neg hc] at hx
        rcases List.mem_cons.mp hx with rfl | hx'
        · obtain ⟨r, hr⟩ := splitCh_head_prefix sep rest h' t' hs
          exact ⟨[], r, by simp [hr]⟩
        · obtain ⟨p, t, hpt⟩ := ih (by rw [hs]; exact List.mem_cons_of_mem _ hx')
          exact ⟨c :: p, t, by simp [hpt]⟩

lemma mem_jsLines (s : String) (line : String) (h : line ∈ jsLines s) :
    ∃ p t, s.data = p ++ line.data ++ t := by
  unfold jsLines at h
  obtain ⟨ld, hmem, hline⟩ := List.mem_map.mp h
  obtain ⟨p, t, hpt⟩ := mem_splitCh '\n' s.data ld hmem
  exact ⟨p, t, by rw [← hline]; exact hpt⟩

/-- The claim's selection rule for a candidate spec file, stated from the
spec's words for comparison with `getSpecFiles`: no bare-path entry or its
hash differs, or the companion source is readable and has no `source:`
entry or its hash differs. -/
def specSelectionRuleSpec (fs : FS) (cache : CacheMap) (f : String) : Prop :=
  (cacheGet cache f = none ∨ ∃ e, cacheGet cache f = some e ∧ e.hash ≠ getFileHash fs f) ∨
    (getFileHash fs (sourceOf f) ≠ none ∧
      (cacheGet cache ("source:" ++ sourceOf f) = none ∨
        ∃ e, cacheGet cache ("source:" ++ sourceOf f) = some e ∧
          e.hash ≠ getFileHash fs (sourceOf f)))

/-- The claim's selection rule for a lint candidate, stated from the
spec's words for comparison with `generateLintCommand`: no `lint:` entry
or its stored hash differs; the stored status plays no role. -/
def lintSelectionRuleSpec (fs : FS) (cache : CacheMap) (f : String) : Prop :=
  cacheGet cache ("lint:" ++ f) = none ∨
    ∃ e, cacheGet cache ("lint:" ++ f) = some e ∧ e.hash ≠ getFileHash fs f

lemma shouldRunSpec_iff (fs : FS) (cache : CacheMap) (f : String) :
    shouldRunSpec fs cache f = true ↔ specSelectionRuleSpec fs cache f := by
  unfold shouldRunSpec specChangedB sourceChangedB specSelectionRuleSpec
  cases h1 : cacheGet cache f <;>
    cases h2 : cacheGet cache ("source:" ++ sourceOf f) <;>
      by_cases h3 : getFileHash fs (sourceOf f) = none <;>
        simp [h1, h2, h3]

lemma shouldRunLint_iff (fs : FS) (cache : CacheMap) (f : String) :
    shouldRunLint fs cache f = true ↔ lintSelectionRuleSpec fs cache f := by
  unfold shouldRunLint lintSelectionRuleSpec
  cases h1 : cacheGet cache ("lint:" ++ f) <;> simp [h1]

/-- C1 (test selection rule): a candidate spec file that exists is placed
in `toRun` exactly when its bare-path cache entry is missing or stale, or
its companion source is readable and its `source:` entry is missing or
stale; otherwise it is placed in `cached`.  The final implication is the
source-triggers-spec case: a stale (or absent) `source:` entry alone
forces the existing spec file into `toRun`. -/
theorem C1_test_selection_rule (fs : FS) (changes : List ChangeRecord) (cache : CacheMap)
    (f : String) :
    (f ∈ (getSpecFiles fs changes cache).toRun ↔
      f ∈ existingSpecFiles fs changes ∧ specSelectionRuleSpec fs cache f) ∧
    (f ∈ (getSpecFiles fs changes cache).cached ↔
      f ∈ existingSpecFiles fs changes ∧ ¬ specSelectionRuleSpec fs cache f) ∧
    (f ∈ existingSpecFiles fs changes →
      getFileHash fs (sourceOf f) ≠ none →
      (cacheGet cache ("source:" ++ sourceOf f) = none ∨
        ∃ e, cacheGet cache ("source:" ++ sourceOf f) = some e ∧
          e.hash ≠ getFileHash fs (sourceOf f)) →
      f ∈ (getSpecFiles fs changes cache).toRun) := by
  refine ⟨?_, ?_, ?_⟩
  · rw [getSpecFiles]
    simp only [List.mem_filter]
    rw [shouldRunSpec_iff]
  · rw [getSpecFiles]
    simp only [List.mem_filter, Bool.not_eq_true']
    rw [← shouldRunSpec_iff]
    simp
  · intro hex hsrc hentry
    rw [getSpecFiles]
    simp only [List.mem_filter]
    exact ⟨hex, (shouldRunSpec_iff fs cache f).mpr (Or.inr ⟨hsrc, hentry⟩)⟩

/-- C4 (lint selection is content-only): a changed file with a recognized
extension is selected to run exactly when its `lint:` entry is missing or
its stored hash differs; otherwise it is cached.  The final implication is
the content-only consequence: a previously failed entry with matching hash
sends the file to `cached`, not `toRun`. -/
theorem C4_lint_selection_content_only (fs : FS) (changes : List ChangeRecord)
    (cache : CacheMap) (f : String) :
    (f ∈ (generateLintCommand fs changes cache).toRun ↔
      f ∈ lintCandidates changes ∧ lintSelectionRuleSpec fs cache f) ∧
    (f ∈ (generateLintCommand fs changes cache).cached ↔
      f ∈ lintCandidates changes ∧ ¬ lintSelectionRuleSpec fs cache f) ∧
    (∀ e, cacheGet cache ("lint:" ++ f) = some e → e.status = .failed →
      e.hash = getFileHash fs f → f ∈ lintCandidates changes →
      f ∈ (generateLintCommand fs changes cache).cached ∧
        f ∉ (generateLintCommand fs changes cache).toRun) := by
  have hrun : f ∈ (generateLintCommand fs changes cache).toRun ↔
      f ∈ lintCandidates changes ∧ lintSelectionRuleSpec fs cache f := by
    unfold generateLintCommand
    by_cases hch : changes = []
    · subst hch
      simp [lintCandidates]
    · rw [if_neg hch]
      by_cases hf : lintCandidates changes = []
      · simp [hf]
      · rw [if_neg hf]
        by_cases ht : (lintCandidates changes).filter (shouldRunLint fs cache) = []
        · rw [if_pos ht]
          simp only [List.mem_filter]
          rw [shouldRunLint_iff]
        · rw [if_neg ht]
          simp only [List.mem_filter]
          rw [shouldRunLint_iff]
  have hcached : f ∈ (generateLintCommand fs changes cache).cached ↔
      f ∈ lintCandidates changes ∧ ¬ lintSelectionRuleSpec fs cache f := by
    unfold generateLintCommand
    by_cases hch : changes = []
    · subst hch
      simp [lintCandidates]
    · rw [if_neg hch]
      by_cases hf : lintCandidates changes = []
      · simp [hf]
      · rw [if_neg hf]
        by_cases ht : (lintCandidates changes).filter (shouldRunLint fs cache) = []
        · rw [if_pos ht]
          simp only [List.mem_filter, Bool.not_eq_true']
          rw [← shouldRunLint_iff]
          simp
        · rw [if_neg ht]
          simp only [List.mem_filter, Bool.not_eq_true']
          rw [← shouldRunLint_iff]
          simp
  refine ⟨hrun, hcached, ?_⟩
  intro e he _ ehash hcand
  have hnot : ¬ lintSelectionRuleSpec fs cache f := by
    unfold lintSelectionRuleSpec
    rw [he]
    push_neg
    refine ⟨by simp, ?_⟩
    rintro e' he'
    injection he' with h'
    rw [← h', ehash]
  exact ⟨hcached.mpr ⟨hcand, hnot⟩, fun hmem => hnot (hrun.mp hmem).2⟩

/-- Concrete filesystem for the C1 witness: `a.spec.ts` exists, both it
and its companion hash successfully. -/
def c1fs : FS :=
  ⟨fun p => decide (p = "a.spec.ts"),
   fun p => if p = "a.spec.ts" then some "h1" else if p = "a.ts" then some "h2" else none⟩

/-- Concrete cache for the C1 witness: the spec entry matches the current
hash, there is no `source:` entry. -/
def c1cache : CacheMap := [("a.spec.ts", ⟨some "h1", .passed, 0, none⟩)]

/-- Witness for C1 at a concrete input: the source changed while the
existing spec file is unchanged, and the spec file lands in `toRun`. -/
theorem C1_test_selection_rule_witness :
    "a.spec.ts" ∈ (getSpecFiles c1fs [⟨"M ", "a.ts", .modified⟩] c1cache).toRun :=
  (C1_test_selection_rule c1fs [⟨"M ", "a.ts", .modified⟩] c1cache "a.spec.ts").2.2
    (by decide) (by decide) (Or.inl (by decide))

/-- Concrete filesystem for the C4 witness. -/
def c4fs : FS := ⟨fun _ => true, fun _ => some "h1"⟩

/-- Concrete cache for the C4 witness: a failed lint entry whose stored
hash matches the current content. -/
def c4cache : CacheMap := [("lint:a.ts", ⟨some "h1", .failed, 0, some "err"⟩)]

/-- Witness for C4 at a concrete input: a previously failed lint file with
unchanged content is cached, not rerun. -/
theorem C4_lint_selection_content_only_witness :
    "a.ts" ∈ (generateLintCommand c4fs [⟨"M ", "a.ts", .modified⟩] c4cache).cached ∧
      "a.ts" ∉ (generateLintCommand c4fs [⟨"M ", "a.ts", .modified⟩] c4cache).toRun :=
  (C4_lint_selection_content_only c4fs [⟨"M ", "a.ts", .modified⟩] c4cache "a.ts").2.2
    ⟨some "h1", .failed, 0, some "err"⟩ (by decide) rfl (by decide) (by decide)

/-- C7 counterexample: the generated test command for a concrete selected
file contains no coverage flag at all (the claim asserts coverage is
enabled in the command). -/
theorem C7_command_counterexample :
    generateNgTestCommand ["src/a.spec.ts"] [] =
      some "ng test --include=src/a.spec.ts --watch=false --karma-config=karma-parallel.conf.js" ∧
    jsIncludes
      "ng test --include=src/a.spec.ts --watch=false --karma-config=karma-parallel.conf.js"
      "coverage" = false := by
  constructor
  · rfl
  · decide

/-- C7 amended: for a non-empty selection the command is exactly `ng test`
with one `--include=` filter per selected spec file, the non-watch flag
and the parallel karma configuration (no coverage flag); an empty
selection yields no command. -/
theorem C7_command_construction (specFiles cachedFiles : List String) :
    (specFiles ≠ [] →
      generateNgTestCommand specFiles cachedFiles =
        some ("ng test " ++ joinSep " " (specFiles.map (fun f => "--include=" ++ f)) ++
          " --watch=false --karma-config=karma-parallel.conf.js")) ∧
    (specFiles = [] → generateNgTestCommand specFiles cachedFiles = none) := by
  constructor
  · intro h
    unfold generateNgTestCommand
    rw [if_neg (by simp [h]), if_neg h]
  · intro h
    subst h
    unfold generateNgTestCommand
    by_cases hc : cachedFiles = [] <;> simp [hc]

/-- Witness for C7 at a concrete non-empty selection. -/
theorem C7_command_construction_witness :
    generateNgTestCommand ["src/a.spec.ts", "src/b.spec.ts"] [] =
      some ("ng test " ++
        joinSep " " (["src/a.spec.ts", "src/b.spec.ts"].map (fun f => "--include=" ++ f)) ++
        " --watch=false --karma-config=karma-parallel.conf.js") :=
  (C7_command_construction ["src/a.spec.ts", "src/b.spec.ts"] []).1 (by decide)

/-- C9 (rename path parsing): for a porcelain rename line the parsed
record's path field is the whole trimmed remainder after the two status
characters — the combined `old -> new` string, not the new path alone —
and the change type is `renamed`. -/
theorem C9_rename_combined_path (old nw : String)
    (hold : old ≠ "")
    (hoh : old.data.head?.all (fun c => !isWs c) = true)
    (hnew : nw ≠ "")
    (hnl : nw.data.getLast?.all (fun c => !isWs c) = true) :
    parseGitLine ("R  " ++ old ++ " -> " ++ nw) =
      some ⟨"R ", old ++ " -> " ++ nw, ChangeType.renamed⟩ := by
  obtain ⟨oc, orest, hodata⟩ : ∃ c t, old.data = c :: t := by
    cases h : old.data with
    | nil => exact absurd (strExt (by rw [h])) hold
    | cons c t => exact ⟨c, t, rfl⟩
  have hoc : isWs oc = false := by
    have hh : old.data.head? = some oc := by rw [hodata]; rfl
    rw [hh] at hoh
    simpa using hoh
  obtain ⟨nc, nrest, hndata⟩ : ∃ c t, nw.data.reverse = c :: t := by
    cases h : nw.data.reverse with
    | nil =>
      have : nw.data = [] := by
        have := congrArg List.reverse h
        simpa using this
      exact absurd (strExt (by rw [this])) hnew
    | cons c t => exact ⟨c, t, rfl⟩
  have hnc : isWs nc = false := by
    have hg : nw.data.getLast? = some nc := by rw [← List.head?_reverse, hndata]; rfl
    rw [hg] at hnl
    simpa using hnl
  set X : List Char := old.data ++ [' ', '-', '>', ' '] ++ nw.data with hXdef
  have hfull : ("R  " ++ old ++ " -> " ++ nw).data = 'R' :: ' ' :: ' ' :: X := by
    rw [strDataAppend, strDataAppend, strDataAppend]
    have h1 : ("R  " : String).data = ['R', ' ', ' '] := by decide
    have h2 : (" -> " : String).data = [' ', '-', '>', ' '] := by decide
    rw [h1, h2, hXdef]
    simp
  have hXcons : X = oc :: (orest ++ [' ', '-', '>', ' '] ++ nw.data) := by
    rw [hXdef, hodata]
    simp
  have hXdrop : List.dropWhile isWs X = X := by
    rw [hXcons, List.dropWhile_cons, if_neg (by simp [hoc])]
  have hXrev : X.reverse = nc :: (nrest ++ ([' ', '-', '>', ' '].reverse ++ old.data.reverse)) := by
    rw [hXdef]
    rw [List.append_assoc, List.reverse_append, List.reverse_append, hndata]
    simp
  have hXrevdrop : List.dropWhile isWs X.reverse = X.reverse := by
    rw [hXrev, List.dropWhile_cons, if_neg (by simp [hnc])]
  have htrim : jsTrimList (' ' :: X) = X := by
    unfold jsTrimList
    rw [List.dropWhile_cons, if_pos (by decide), hXdrop, hXrevdrop, List.reverse_reverse]
  have hcat : (old ++ " -> " ++ nw).data = X := by
    rw [strDataAppend, strDataAppend]
  simp only [parseGitLine, hfull]
  have hdrop2 : (('R' :: ' ' :: ' ' :: X).drop 2) = ' ' :: X := rfl
  rw [hdrop2, htrim]
  have hstatus : strTake ("R  " ++ old ++ " -> " ++ nw) 2 = "R " := by
    unfold strTake
    rw [hfull]
    rfl
  rw [hstatus]
  have hfile : (⟨X⟩ : String) = old ++ " -> " ++ nw := strExt (by rw [hcat])
  have hfne : (⟨X⟩ : String) ≠ "" := by
    intro h
    have := congrArg String.data h
    rw [hXcons] at this
    exact absurd this (by simp)
  rw [if_neg hfne, hfile]
  simp

/-- Witness for C9 at a concrete porcelain rename line. -/
theorem C9_rename_combined_path_witness :
    parseGitLine ("R  " ++ "src/a.ts" ++ " -> " ++ "src/b.ts") =
      some ⟨"R ", "src/a.ts" ++ " -> " ++ "src/b.ts", ChangeType.renamed⟩ :=
  C9_rename_combined_path "src/a.ts" "src/b.ts" (by decide) (by decide) (by decide) (by decide)

/-- C3 counterexample: an output that contains the in-progress marker
`Building` (so it "appears truncated" in the claim's sense) but also a
`TOTAL:` summary line is classified by the summary branch, not as
incomplete, and the failure IS cached for the attempted file. -/
theorem C3_truncation_counterexample :
    jsIncludes "Building TOTAL: 1 FAILED, 0 SUCCESS" "Building" = true ∧
    testFailureReason "Building TOTAL: 1 FAILED, 0 SUCCESS" ≠
      "Test execution incomplete or interrupted" ∧
    (handleTestFailure ⟨fun _ => true, fun _ => some "h"⟩ 0
      "Building TOTAL: 1 FAILED, 0 SUCCESS" ["src/a.spec.ts"] []).2 = true ∧
    cacheGet (handleTestFailure ⟨fun _ => true, fun _ => some "h"⟩ 0
      "Building TOTAL: 1 FAILED, 0 SUCCESS" ["src/a.spec.ts"] []).1 "src/a.spec.ts" ≠ none := by
  refine ⟨by decide, by decide, by decide, by decide⟩

/-- C3 amended: within the classifier branch actually reached on
truncation — no structured `TOTAL:` summary and no compiler-diagnostic
marker — an output with the in-progress marker, or empty after filtering,
is classified incomplete and the handler writes nothing and never saves. -/
theorem C3_no_caching_on_incomplete (fs : FS) (now : Nat) (msg : String)
    (attempted : List String) (cache : CacheMap)
    (h1 : findTotal msg = none) (h2 : hasCompilationError msg = false)
    (h3 : jsIncludes msg "Building" = true ∨
      ((jsLines msg).filter
        (fun l => decide (jsTrim l ≠ "") && !jsIncludes l "Building")).length = 0) :
    testFailureReason msg = "Test execution incomplete or interrupted" ∧
    handleTestFailure fs now msg attempted cache = (cache, false) := by
  have hreason : testFailureReason msg = "Test execution incomplete or interrupted" := by
    simp only [testFailureReason, h1, h2]
    rw [if_neg (by simp)]
    rw [if_pos]
    rcases h3 with h3 | h3
    · rw [Bool.or_eq_true]
      exact Or.inl h3
    · rw [Bool.or_eq_true]
      exact Or.inr (by rw [decide_eq_true_eq]; exact h3)
  refine ⟨hreason, ?_⟩
  simp only [handleTestFailure, hreason]
  rw [if_neg (by decide)]

/-- Witness for the amended C3 at a concrete truncated output. -/
theorem C3_no_caching_on_incomplete_witness :
    testFailureReason "Building" = "Test execution incomplete or interrupted" ∧
    handleTestFailure ⟨fun _ => false, fun _ => none⟩ 0 "Building" [] [] = ([], false) :=
  C3_no_caching_on_incomplete ⟨fun _ => false, fun _ => none⟩ 0 "Building" [] []
    (by decide) (by decide) (Or.inl (by decide))

/-- Concrete bypassed-cache run for the C8 counterexample and witness:
one changed source, its spec exists, one previously persisted entry. -/
def c8cfg : RunConfig :=
  ⟨⟨fun p => decide (p = "src/a.spec.ts"),
    fun p => if p = "src/a.spec.ts" then some "h1" else if p = "src/a.ts" then some "h2" else none⟩,
   [⟨"M ", "src/a.ts", .modified⟩], true, true,
   [("old.spec.ts", ⟨some "h0", .passed, 1, none⟩)]⟩

/-- C8 counterexample: a bypassed-cache run in which the test process
completes saves the fresh in-memory mapping over the store, so an entry
persisted before the run no longer exists after it. -/
theorem C8_cache_bypass_counterexample :
    cacheGet c8cfg.persisted "old.spec.ts" = some ⟨some "h0", .passed, 1, none⟩ ∧
    cacheGet (runModel c8cfg [⟨.test, some 0, "", 42⟩]).persisted "old.spec.ts" = none := by
  refine ⟨by decide, by decide⟩

/-- C8 amended: bypassing the cache substitutes an empty mapping for
selection and never deletes the store by itself — the persisted mapping is
unchanged as long as no completed process triggers a save; but a save
during a bypassed run rewrites the store from the empty-started in-memory
mapping (see the counterexample), so prior entries survive only run
segments without saves. -/
theorem C8_cache_bypass (cfg : RunConfig) (h : cfg.disableCache = true) :
    runSpecSelection cfg = getSpecFiles cfg.fs cfg.changes [] ∧
    runLintResult cfg =
      (if cfg.disableLint then ⟨none, [], []⟩ else generateLintCommand cfg.fs cfg.changes []) ∧
    (runModel cfg []).persisted = cfg.persisted := by
  refine ⟨?_, ?_, ?_⟩
  · unfold runSpecSelection initialCache
    simp [h]
  · unfold runLintResult initialCache
    simp [h]
  · simp only [runModel]
    split
    · rfl
    · rfl

/-- Witness for the amended C8 at the concrete bypassed configuration. -/
theorem C8_cache_bypass_witness :
    runSpecSelection c8cfg = getSpecFiles c8cfg.fs c8cfg.changes [] ∧
    runLintResult c8cfg =
      (if c8cfg.disableLint then ⟨none, [], []⟩ else generateLintCommand c8cfg.fs c8cfg.changes []) ∧
    (runModel c8cfg []).persisted = c8cfg.persisted :=
  C8_cache_bypass c8cfg rfl

lemma strAppend_left_cancel (p a b : String) (h : p ++ a = p ++ b) : a = b := by
  have hd := congrArg String.data h
  rw [strDataAppend, strDataAppend] at hd
  exact strExt (List.append_cancel_left hd)

lemma trySrcSpecMatch_prefix (l m : List Char) (n : Nat)
    (h : trySrcSpecMatch l = some (m, n)) : ∃ t, l = m ++ t := by
  unfold trySrcSpecMatch at h
  by_cases hp : isPre "src/".data l = true
  · rw [if_pos hp] at h
    simp only [] at h
    cases hb : bestK ((l.drop 4).takeWhile nonWsColon) sufLenSpecTs with
    | none => rw [hb] at h; exact absurd h (by simp)
    | some k =>
      rw [hb] at h
      simp only [] at h
      cases hs : sufLenSpecTs (((l.drop 4).takeWhile nonWsColon).drop k) with
      | none => rw [hs] at h; exact absurd h (by simp)
      | some s =>
        rw [hs] at h
        simp only [] at h
        injection h with h1
        injection h1 with hm _
        obtain ⟨t0, ht0⟩ := (isPre_iff _ _).mp hp
        have hdrop : l.drop 4 = t0 := by
          rw [ht0]
          have h4 : ("src/".data).length = 4 := by decide
          rw [← h4]
          exact List.drop_left _ _
        refine ⟨((l.drop 4).takeWhile nonWsColon).drop (k + s) ++
          (l.drop 4).dropWhile nonWsColon, ?_⟩
        rw [← hm]
        rw [List.append_assoc, ← List.append_assoc (((l.drop 4).takeWhile nonWsColon).take (k + s))]
        rw [List.take_append_drop, List.takeWhile_append_dropWhile, hdrop]
        have hlit : ("src/".data : List Char) = ['s', 'r', 'c', '/'] := by decide
        rw [hlit] at ht0
        exact ht0
  · rw [if_neg hp] at h
    exact absurd h (by simp)

lemma scanSrcAux_mem (fuel : Nat) :
    ∀ (l x : List Char), x ∈ scanSrcAux fuel l → ∃ p t, l = p ++ x ++ t := by
  induction fuel with
  | zero =>
    intro l x hx
    simp [scanSrcAux] at hx
  | succ f ih =>
    intro l x hx
    cases l with
    | nil => simp [scanSrcAux] at hx
    | cons c rest =>
      cases hm : trySrcSpecMatch (c :: rest) with
      | some mn =>
        obtain ⟨m, n⟩ := mn
        simp only [scanSrcAux, hm] at hx
        rcases List.mem_cons.mp hx with rfl | hx'
        · obtain ⟨t, ht⟩ := trySrcSpecMatch_prefix _ _ _ hm
          exact ⟨[], t, by simpa using ht⟩
        · obtain ⟨p, t, hpt⟩ := ih _ _ hx'
          refine ⟨(c :: rest).take n ++ p, t, ?_⟩
          conv_lhs => rw [← List.take_append_drop n (c :: rest)]
          rw [hpt]
          simp
      | none =>
        simp only [scanSrcAux, hm] at hx
        obtain ⟨p, t, hpt⟩ := ih _ _ hx
        exact ⟨c :: p, t, by simp [hpt]⟩

lemma foldl_addIfNew_mem (ms : List (List Char)) :
    ∀ (acc : List String) (x : String),
      x ∈ ms.foldl (fun a m => addIfNew a ⟨m⟩) acc → x ∈ acc ∨ ∃ m ∈ ms, x = (⟨m⟩ : String) := by
  induction ms with
  | nil =>
    intro acc x hx
    exact Or.inl hx
  | cons m ms ih =>
    intro acc x hx
    rw [List.foldl_cons] at hx
    rcases ih _ _ hx with h | ⟨m', hm', rfl⟩
    · unfold addIfNew at h
      by_cases hmem : (⟨m⟩ : String) ∈ acc
      · rw [if_pos hmem] at h
        exact Or.inl h
      · rw [if_neg hmem] at h
        rcases List.mem_append.mp h with h | h
        · exact Or.inl h
        · exact Or.inr ⟨m, List.mem_cons_self m ms, List.mem_singleton.mp h⟩
    · exact Or.inr ⟨m', List.mem_cons_of_mem _ hm', rfl⟩

lemma filesInError_fold_mem (lns : List String) :
    ∀ (acc : List String) (x : String),
      x ∈ lns.foldl
        (fun acc line => (scanSrcMatches line.data).foldl (fun a m => addIfNew a ⟨m⟩) acc)
        acc →
      x ∈ acc ∨ ∃ line ∈ lns, ∃ m ∈ scanSrcMatches line.data, x = (⟨m⟩ : String) := by
  induction lns with
  | nil =>
    intro acc x hx
    exact Or.inl hx
  | cons ln lns ih =>
    intro acc x hx
    rw [List.foldl_cons] at hx
    rcases ih _ _ hx with h | ⟨ln', h1, h2⟩
    · rcases foldl_addIfNew_mem _ _ _ h with h | ⟨m, hm, rfl⟩
      · exact Or.inl h
      · exact Or.inr ⟨ln, List.mem_cons_self _ _, m, hm, rfl⟩
    · exact Or.inr ⟨ln', List.mem_cons_of_mem _ h1, h2⟩

/-- Every path extracted by the compile-error scan literally appears as a
substring of the raw output. -/
lemma mem_filesInError (msg a : String) (ha : a ∈ filesInError msg) :
    jsIncludes msg a = true := by
  unfold filesInError at ha
  rcases filesInError_fold_mem _ _ _ ha with h | ⟨line, hline, m, hm, rfl⟩
  · exact absurd h (List.not_mem_nil a)
  · obtain ⟨p1, t1, h1⟩ := mem_jsLines msg line hline
    obtain ⟨p2, t2, h2⟩ := scanSrcAux_mem _ _ _ hm
    rw [jsIncludes_iff]
    refine ⟨p1 ++ p2, t2 ++ t1, ?_⟩
    rw [h1, h2]
    simp

lemma failWriteStep_frame (fs : FS) (now : Nat) (reason : String) (c : CacheMap)
    (f g : String) (h1 : g ≠ f) (h2 : g ≠ "source:" ++ sourceOf f) :
    cacheGet (failWriteStep fs now reason c f) g = cacheGet c g := by
  unfold failWriteStep
  simp only []
  cases hh : getFileHash fs f with
  | none =>
    cases hs : getFileHash fs (sourceOf f) with
    | none => rfl
    | some sh => exact cacheGet_set_ne _ _ _ _ h2
  | some h =>
    cases hs : getFileHash fs (sourceOf f) with
    | none => exact cacheGet_set_ne _ _ _ _ h1
    | some sh =>
      rw [cacheGet_set_ne _ _ _ _ h2, cacheGet_set_ne _ _ _ _ h1]

lemma compileCacheStep_frame (fs : FS) (now : Nat) (msg reason : String) (c : CacheMap)
    (f g : String)
    (hg : f ∈ filesInError msg → g ≠ f ∧ g ≠ "source:" ++ sourceOf f) :
    cacheGet (compileCacheStep fs now msg reason c f) g = cacheGet c g := by
  unfold compileCacheStep
  by_cases hk : f ∈ filesInError msg
  · rw [if_pos hk]
    exact failWriteStep_frame fs now reason c f g (hg hk).1 (hg hk).2
  · rw [if_neg hk]

lemma compileFold_frame (fs : FS) (now : Nat) (msg reason : String) (att : List String)
    (g : String)
    (hg : ∀ a ∈ att, a ∈ filesInError msg → g ≠ a ∧ g ≠ "source:" ++ sourceOf a) :
    ∀ c : CacheMap,
      cacheGet (att.foldl (compileCacheStep fs now msg reason) c) g = cacheGet c g := by
  induction att with
  | nil => intro c; rfl
  | cons a rest ih =>
    intro c
    rw [List.foldl_cons]
    rw [ih (fun a' ha' => hg a' (List.mem_cons_of_mem _ ha'))]
    exact compileCacheStep_frame fs now msg reason c a g (hg a (List.mem_cons_self a rest))

lemma compileFold_changed (fs : FS) (now : Nat) (msg reason : String) (att : List String)
    (g : String) :
    ∀ c : CacheMap,
      cacheGet (att.foldl (compileCacheStep fs now msg reason) c) g ≠ cacheGet c g →
      ∃ a ∈ att, a ∈ filesInError msg ∧ (g = a ∨ g = "source:" ++ sourceOf a) := by
  induction att with
  | nil =>
    intro c h
    exact absurd rfl h
  | cons a rest ih =>
    intro c h
    rw [List.foldl_cons] at h
    by_cases hch : cacheGet (rest.foldl (compileCacheStep fs now msg reason)
        (compileCacheStep fs now msg reason c a)) g =
        cacheGet (compileCacheStep fs now msg reason c a) g
    · have hstep : cacheGet (compileCacheStep fs now msg reason c a) g ≠ cacheGet c g := by
        rw [← hch]
        exact h
      by_cases hk : a ∈ filesInError msg
      · refine ⟨a, List.mem_cons_self a rest, hk, ?_⟩
        by_contra hno
        push_neg at hno
        exact hstep (compileCacheStep_frame fs now msg reason c a g (fun _ => hno))
      · refine absurd ?_ hstep
        unfold compileCacheStep
        rw [if_neg hk]
    · obtain ⟨a', ha', hp⟩ := ih _ hch
      exact ⟨a', List.mem_cons_of_mem _ ha', hp⟩

/-- C2 (compile-failure isolation): when the failed test output carries
the compiler-diagnostic marker, the handler writes failed entries only at
the bare path and `source:` key of attempted files whose path was
extracted from the diagnostic text — each such path literally appears in
the output — and an attempted file whose path does not appear in the
output (with no key collisions from other attempted files) keeps its cache
entry and its companion `source:` entry completely unchanged. -/
theorem C2_compile_failure_isolation (fs : FS) (now : Nat) (msg : String)
    (attempted : List String) (cache : CacheMap)
    (hcomp : hasCompilationError msg = true) :
    (∀ g, cacheGet (handleTestFailure fs now msg attempted cache).1 g ≠ cacheGet cache g →
      ∃ a ∈ attempted, jsIncludes msg a = true ∧ (g = a ∨ g = "source:" ++ sourceOf a)) ∧
    (∀ f ∈ attempted, jsIncludes msg f = false →
      (∀ a ∈ attempted, a ∈ filesInError msg →
        f ≠ "source:" ++ sourceOf a ∧ "source:" ++ sourceOf f ≠ a ∧
          sourceOf f ≠ sourceOf a) →
      cacheGet (handleTestFailure fs now msg attempted cache).1 f = cacheGet cache f ∧
      cacheGet (handleTestFailure fs now msg attempted cache).1 ("source:" ++ sourceOf f) =
        cacheGet cache ("source:" ++ sourceOf f)) := by
  have hres : (handleTestFailure fs now msg attempted cache).1 = cache ∨
      (handleTestFailure fs now msg attempted cache).1 =
        attempted.foldl (compileCacheStep fs now msg (testFailureReason msg)) cache := by
    simp only [handleTestFailure]
    by_cases hsc : (decide (testFailureReason msg ≠ "") &&
        !jsIncludes (testFailureReason msg) "Test execution incomplete or interrupted") = true
    · rw [if_pos hsc, if_pos hcomp]
      exact Or.inr rfl
    · rw [if_neg hsc]
      exact Or.inl rfl
  constructor
  · intro g hg
    rcases hres with he | he
    · rw [he] at hg
      exact absurd rfl hg
    · rw [he] at hg
      obtain ⟨a, ha, hk, hkey⟩ := compileFold_changed fs now msg _ attempted g cache hg
      exact ⟨a, ha, mem_filesInError msg a hk, hkey⟩
  · intro f hf hjf hcol
    rcases hres with he | he
    · rw [he]
      exact ⟨rfl, rfl⟩
    · rw [he]
      constructor
      · refine compileFold_frame fs now msg _ attempted f ?_ cache
        intro a ha hk
        refine ⟨?_, (hcol a ha hk).1⟩
        intro heq
        subst heq
        rw [mem_filesInError msg f hk] at hjf
        exact absurd hjf (by simp)
      · refine compileFold_frame fs now msg _ attempted ("source:" ++ sourceOf f) ?_ cache
        intro a ha hk
        refine ⟨(hcol a ha hk).2.1, ?_⟩
        intro heq
        exact (hcol a ha hk).2.2 (strAppend_left_cancel "source:" _ _ heq)

/-- Witness for C2 at a concrete compile failure naming only one of two
attempted spec files: the unnamed file's entries are untouched. -/
theorem C2_compile_failure_isolation_witness :
    cacheGet (handleTestFailure ⟨fun _ => true, fun _ => some "h"⟩ 0
        "[ERROR] TS2304: x\nsrc/a.spec.ts:1:1" ["src/a.spec.ts", "src/b.spec.ts"] []).1
      "src/b.spec.ts" = cacheGet [] "src/b.spec.ts" ∧
    cacheGet (handleTestFailure ⟨fun _ => true, fun _ => some "h"⟩ 0
        "[ERROR] TS2304: x\nsrc/a.spec.ts:1:1" ["src/a.spec.ts", "src/b.spec.ts"] []).1
      ("source:" ++ sourceOf "src/b.spec.ts") =
      cacheGet [] ("source:" ++ sourceOf "src/b.spec.ts") :=
  (C2_compile_failure_isolation ⟨fun _ => true, fun _ => some "h"⟩ 0
      "[ERROR] TS2304: x\nsrc/a.spec.ts:1:1" ["src/a.spec.ts", "src/b.spec.ts"] []
      (by decide)).2
    "src/b.spec.ts" (by decide) (by decide) (by decide)

/-- The invariant C10 claims of every written cache entry: a non-null
content hash, and no error text on passed entries. -/
def entryOk (e : CacheEntry) : Prop :=
  e.hash ≠ none ∧ (e.status = .passed → e.error = none)

lemma failWriteStep_pred (fs : FS) (now : Nat) (reason : String) (c : CacheMap)
    (f k : String) (e : CacheEntry)
    (h : cacheGet (failWriteStep fs now reason c f) k = some e) :
    cacheGet c k = some e ∨ entryOk e := by
  unfold failWriteStep at h
  simp only [] at h
  cases hh : getFileHash fs f with
  | none =>
    rw [hh] at h
    cases hs : getFileHash fs (sourceOf f) with
    | none =>
      rw [hs] at h
      exact Or.inl h
    | some sh =>
      rw [hs] at h
      rcases cacheGet_set_cases _ _ _ _ _ h with ⟨_, rfl⟩ | h'
      · exact Or.inr ⟨by simp, by simp⟩
      · exact Or.inl h'
  | some hv =>
    rw [hh] at h
    cases hs : getFileHash fs (sourceOf f) with
    | none =>
      rw [hs] at h
      rcases cacheGet_set_cases _ _ _ _ _ h with ⟨_, rfl⟩ | h'
      · exact Or.inr ⟨by simp, by simp⟩
      · exact Or.inl h'
    | some sh =>
      rw [hs] at h
      rcases cacheGet_set_cases _ _ _ _ _ h with ⟨_, rfl⟩ | h'
      · exact Or.inr ⟨by simp, by simp⟩
      · rcases cacheGet_set_cases _ _ _ _ _ h' with ⟨_, rfl⟩ | h''
        · exact Or.inr ⟨by simp, by simp⟩
        · exact Or.inl h''

lemma compileCacheStep_pred (fs : FS) (now : Nat) (msg reason : String) (c : CacheMap)
    (f k : String) (e : CacheEntry)
    (h : cacheGet (compileCacheStep fs now msg reason c f) k = some e) :
    cacheGet c k = some e ∨ entryOk e := by
  unfold compileCacheStep at h
  by_cases hk : f ∈ filesInError msg
  · rw [if_pos hk] at h
    exact failWriteStep_pred fs now reason c f k e h
  · rw [if_neg hk] at h
    exact Or.inl h

lemma passWriteStep_pred (fs : FS) (now : Nat) (c : CacheMap)
    (f k : String) (e : CacheEntry)
    (h : cacheGet (passWriteStep fs now c f) k = some e) :
    cacheGet c k = some e ∨ entryOk e := by
  unfold passWriteStep at h
  simp only [] at h
  cases hh : getFileHash fs f with
  | none =>
    rw [hh] at h
    cases hs : getFileHash fs (sourceOf f) with
    | none =>
      rw [hs] at h
      exact Or.inl h
    | some sh =>
      rw [hs] at h
      rcases cacheGet_set_cases _ _ _ _ _ h with ⟨_, rfl⟩ | h'
      · exact Or.inr ⟨by simp, by simp⟩
      · exact Or.inl h'
  | some hv =>
    rw [hh] at h
    cases hs : getFileHash fs (sourceOf f) with
    | none =>
      rw [hs] at h
      rcases cacheGet_set_cases _ _ _ _ _ h with ⟨_, rfl⟩ | h'
      · exact Or.inr ⟨by simp, by simp⟩
      · exact Or.inl h'
    | some sh =>
      rw [hs] at h
      rcases cacheGet_set_cases _ _ _ _ _ h with ⟨_, rfl⟩ | h'
      · exact Or.inr ⟨by simp, by simp⟩
      · rcases cacheGet_set_cases _ _ _ _ _ h' with ⟨_, rfl⟩ | h''
        · exact Or.inr ⟨by simp, by simp⟩
        · exact Or.inl h''

lemma lintPassStep_pred (fs : FS) (now : Nat) (c : CacheMap)
    (f k : String) (e : CacheEntry)
    (h : cacheGet (lintPassStep fs now c f) k = some e) :
    cacheGet c k = some e ∨ entryOk e := by
  unfold lintPassStep at h
  cases hh : getFileHash fs f with
  | none =>
    rw [hh] at h
    exact Or.inl h
  | some hv =>
    rw [hh] at h
    rcases cacheGet_set_cases _ _ _ _ _ h with ⟨_, rfl⟩ | h'
    · exact Or.inr ⟨by simp, by simp⟩
    · exact Or.inl h'

lemma lintFailStep_pred (fs : FS) (now : Nat) (ff : List String) (reason : String)
    (c : CacheMap) (f k : String) (e : CacheEntry)
    (h : cacheGet (lintFailStep fs now ff reason c f) k = some e) :
    cacheGet c k = some e ∨ entryOk e := by
  unfold lintFailStep at h
  cases hh : getFileHash fs f with
  | none =>
    rw [hh] at h
    exact Or.inl h
  | some hv =>
    rw [hh] at h
    simp only [] at h
    rcases cacheGet_set_cases _ _ _ _ _ h with ⟨_, rfl⟩ | h'
    · by_cases hmem : decide (f ∈ ff) = true
      · exact Or.inr ⟨by simp, by simp [hmem]⟩
      · rw [Bool.not_eq_true] at hmem
        exact Or.inr ⟨by simp, by simp [hmem]⟩
    · exact Or.inl h'

lemma foldl_pred_preserve (step : CacheMap → String → CacheMap)
    (hstep : ∀ c f k e, cacheGet (step c f) k = some e → cacheGet c k = some e ∨ entryOk e)
    (att : List String) :
    ∀ (c : CacheMap) (k : String) (e : CacheEntry),
      cacheGet (att.foldl step c) k = some e → cacheGet c k = some e ∨ entryOk e := by
  induction att with
  | nil =>
    intro c k e h
    exact Or.inl h
  | cons a rest ih =>
    intro c k e h
    rw [List.foldl_cons] at h
    rcases ih _ _ _ h with h' | h'
    · exact hstep c a k e h'
    · exact Or.inr h'

lemma handleTestFailure_pred (fs : FS) (now : Nat) (msg : String) (att : List String)
    (c : CacheMap) (k : String) (e : CacheEntry)
    (h : cacheGet (handleTestFailure fs now msg att c).1 k = some e) :
    cacheGet c k = some e ∨ entryOk e := by
  simp only [handleTestFailure] at h
  by_cases hsc : (decide (testFailureReason msg ≠ "") &&
      !jsIncludes (testFailureReason msg) "Test execution incomplete or interrupted") = true
  · rw [if_pos hsc] at h
    by_cases hcomp : hasCompilationError msg = true
    · rw [if_pos hcomp] at h
      exact foldl_pred_preserve _ (compileCacheStep_pred fs now msg _) att c k e h
    · rw [if_neg hcomp] at h
      exact foldl_pred_preserve _ (failWriteStep_pred fs now _) att c k e h
  · rw [if_neg hsc] at h
    exact Or.inl h

lemma handleTestPassed_pred (fs : FS) (now : Nat) (att : List String)
    (c : CacheMap) (k : String) (e : CacheEntry)
    (h : cacheGet (handleTestPassed fs now att c).1 k = some e) :
    cacheGet c k = some e ∨ entryOk e := by
  unfold handleTestPassed at h
  by_cases hl : att.length > 0
  · rw [if_pos hl] at h
    exact foldl_pred_preserve _ (passWriteStep_pred fs now) att c k e h
  · rw [if_neg hl] at h
    exact Or.inl h

lemma handleLintPassed_pred (fs : FS) (now : Nat) (att : List String)
    (c : CacheMap) (k : String) (e : CacheEntry)
    (h : cacheGet (handleLintPassed fs now att c).1 k = some e) :
    cacheGet c k = some e ∨ entryOk e := by
  unfold handleLintPassed at h
  by_cases hl : att.length > 0
  · rw [if_pos hl] at h
    exact foldl_pred_preserve _ (lintPassStep_pred fs now) att c k e h
  · rw [if_neg hl] at h
    exact Or.inl h

lemma handleLintFailure_pred (fs : FS) (now : Nat) (msg : String) (att : List String)
    (c : CacheMap) (k : String) (e : CacheEntry)
    (h : cacheGet (handleLintFailure fs now msg att c).1 k = some e) :
    cacheGet c k = some e ∨ entryOk e := by
  unfold handleLintFailure at h
  exact foldl_pred_preserve _ (lintFailStep_pred fs now _ _) att c k e h

lemma applyEvent_pred (fs : FS) (lintA testA : Bool) (lf tf : List String)
    (st : RunState) (ev : ProcEvent) (k : String) (e : CacheEntry)
    (h : cacheGet (applyEvent fs lintA testA lf tf st ev).cache k = some e) :
    cacheGet st.cache k = some e ∨ entryOk e := by
  obtain ⟨nm, code, out, tnow⟩ := ev
  cases nm with
  | lint =>
    simp only [applyEvent] at h
    by_cases ha : lintA = true
    · rw [if_pos ha] at h
      simp only [] at h
      by_cases hc : code ≠ some 0
      · rw [if_pos hc] at h
        exact handleLintFailure_pred fs tnow _ lf st.cache k e h
      · rw [if_neg hc] at h
        exact handleLintPassed_pred fs tnow lf st.cache k e h
    · rw [if_neg ha] at h
      exact Or.inl h
  | test =>
    simp only [applyEvent] at h
    by_cases ha : testA = true
    · rw [if_pos ha] at h
      simp only [] at h
      by_cases hc : code ≠ some 0
      · rw [if_pos hc] at h
        exact handleTestFailure_pred fs tnow _ tf st.cache k e h
      · rw [if_neg hc] at h
        exact handleTestPassed_pred fs tnow tf st.cache k e h
    · rw [if_neg ha] at h
      exact Or.inl h

lemma eventsFold_pred (fs : FS) (lintA testA : Bool) (lf tf : List String)
    (events : List ProcEvent) :
    ∀ (st : RunState) (k : String) (e : CacheEntry),
      cacheGet ((events.foldl (applyEvent fs lintA testA lf tf) st)).cache k = some e →
      cacheGet st.cache k = some e ∨ entryOk e := by
  induction events with
  | nil =>
    intro st k e h
    exact Or.inl h
  | cons ev evs ih =>
    intro st k e h
    rw [List.foldl_cons] at h
    rcases ih _ _ _ h with h' | h'
    · exact applyEvent_pred fs lintA testA lf tf st ev k e h'
    · exact Or.inr h'

/-- C10 (written-entry invariant): after any run, every entry of the
in-memory cache either was already in the starting mapping or was written
by one of the cache-writing branches, and every written entry carries a
non-null hash (a write is skipped when hashing fails) and, when passed,
no error text. -/
theorem C10_written_entries_invariant (cfg : RunConfig) (events : List ProcEvent)
    (k : String) (e : CacheEntry)
    (h : cacheGet (runModel cfg events).cache k = some e) :
    cacheGet (initialCache cfg) k = some e ∨ entryOk e := by
  simp only [runModel] at h
  by_cases hc : (runLintResult cfg).command = none ∧ runTestCmd cfg = none
  · rw [if_pos hc] at h
    exact Or.inl h
  · rw [if_neg hc] at h
    exact eventsFold_pred cfg.fs _ _ _ _ events ⟨initialCache cfg, cfg.persisted⟩ k e h

/-- Concrete run for the C10 witness. -/
def c10cfg : RunConfig :=
  ⟨⟨fun p => decide (p = "src/a.spec.ts"),
    fun p => if p = "src/a.spec.ts" then some "h1" else if p = "src/a.ts" then some "h2" else none⟩,
   [⟨"M ", "src/a.ts", .modified⟩], true, false, []⟩

/-- Witness for C10 at a concrete run with one passing test process. -/
theorem C10_written_entries_invariant_witness :
    cacheGet (runModel c10cfg [⟨.test, some 0, "", 42⟩]).cache "src/a.spec.ts" =
      some ⟨some "h1", .passed, 42, none⟩ ∧
    (cacheGet (initialCache c10cfg) "src/a.spec.ts" =
        some (⟨some "h1", .passed, 42, none⟩ : CacheEntry) ∨
      entryOk ⟨some "h1", .passed, 42, none⟩) :=
  ⟨by decide,
   C10_written_entries_invariant c10cfg [⟨.test, some 0, "", 42⟩] "src/a.spec.ts"
     ⟨some "h1", .passed, 42, none⟩ (by decide)⟩

lemma strStarts_atPrefix (p : String) : strStarts ("  at " ++ p) "  at " = true := by
  unfold strStarts
  rw [strDataAppend]
  exact isPre_append_self _ _

lemma jsTrim_ne_not_at (s : String) (h : jsTrim s ≠ "") :
    strStarts (jsTrim s) "  at " = false := by
  cases hd : (jsTrim s).data with
  | nil => exact absurd (strExt (by rw [hd])) h
  | cons c t =>
    have hc : isWs c = false := jsTrimList_head s.data c t hd
    unfold strStarts
    rw [hd]
    by_contra hb
    rw [Bool.not_eq_false] at hb
    obtain ⟨t', ht'⟩ := (isPre_iff _ _).mp hb
    have hat : ("  at ".data : List Char) = [' ', ' ', 'a', 't', ' '] := by decide
    rw [hat] at ht'
    injection ht' with h1 _
    rw [h1] at hc
    exact absurd hc (by decide)

lemma cleanErrorOf_not_at (line : String) (h : cleanErrorOf line ≠ "") :
    strStarts (cleanErrorOf line) "  at " = false := by
  unfold cleanErrorOf at h ⊢
  exact jsTrim_ne_not_at _ h

lemma tsStep_filter_le (line : String) (rest : List String) (acc : List String) :
    ((tsStep line rest acc).filter (fun e => !strStarts e "  at ")).length ≤
      (acc.filter (fun e => !strStarts e "  at ")).length + 1 := by
  unfold tsStep
  simp only []
  have hacc1 : ((if cleanErrorOf line = "" then acc else acc ++ [cleanErrorOf line]).filter
      (fun e => !strStarts e "  at ")).length ≤
      (acc.filter (fun e => !strStarts e "  at ")).length + 1 := by
    by_cases hce : cleanErrorOf line = ""
    · rw [if_pos hce]
      omega
    · rw [if_neg hce, List.filter_append, List.length_append]
      have : ([cleanErrorOf line].filter (fun e => !strStarts e "  at ")).length ≤ 1 :=
        List.length_filter_le _ _
      omega
  cases hfl : findLoc rest with
  | none => exact hacc1
  | some p =>
    rw [List.filter_append, List.length_append]
    have hat : (["  at " ++ p].filter (fun e => !strStarts e "  at ")).length = 0 := by
      simp [strStarts_atPrefix]
    omega

lemma tsStep_mem_at (line : String) (rest : List String) (acc : List String) (e : String)
    (he : e ∈ tsStep line rest acc) (hat : strStarts e "  at " = true) :
    e ∈ acc ∨ ∃ p, findLoc rest = some p ∧ e = "  at " ++ p := by
  unfold tsStep at he
  simp only [] at he
  have hacc1 : e ∈ (if cleanErrorOf line = "" then acc else acc ++ [cleanErrorOf line]) →
      e ∈ acc := by
    intro h1
    by_cases hce : cleanErrorOf line = ""
    · rw [if_pos hce] at h1
      exact h1
    · rw [if_neg hce] at h1
      rcases List.mem_append.mp h1 with h | h
      · exact h
      · rw [List.mem_singleton] at h
        subst h
        rw [cleanErrorOf_not_at line hce] at hat
        exact absurd hat (by simp)
  cases hfl : findLoc rest with
  | none =>
    rw [hfl] at he
    exact Or.inl (hacc1 he)
  | some p =>
    rw [hfl] at he
    rcases List.mem_append.mp he with h | h
    · exact Or.inl (hacc1 h)
    · rw [List.mem_singleton] at h
      exact Or.inr ⟨p, rfl, h⟩

lemma tsLoop_bound (L : List String) :
    ∀ acc : List String, acc.length ≤ 5 →
      ((tsLoop L acc).filter (fun e => !strStarts e "  at ")).length ≤ 6 := by
  induction L with
  | nil =>
    intro acc hacc
    have h1 : ((tsLoop [] acc).filter (fun e => !strStarts e "  at ")).length ≤ acc.length :=
      List.length_filter_le _ _
    omega
  | cons line rest ih =>
    intro acc hacc
    by_cases hinc : jsIncludes line "[ERROR] TS" = true
    · have heq : tsLoop (line :: rest) acc =
          if (tsStep line rest acc).length ≥ 6 then tsStep line rest acc
          else tsLoop rest (tsStep line rest acc) := by
        simp only [tsLoop, hinc, if_true]
      rw [heq]
      have hle : ((tsStep line rest acc).filter (fun e => !strStarts e "  at ")).length ≤
          (acc.filter (fun e => !strStarts e "  at ")).length + 1 :=
        tsStep_filter_le line rest acc
      have hfl : (acc.filter (fun e => !strStarts e "  at ")).length ≤ acc.length :=
        List.length_filter_le _ _
      by_cases hlen : (tsStep line rest acc).length ≥ 6
      · rw [if_pos hlen]
        omega
      · rw [if_neg hlen]
        exact ih _ (by omega)
    · have heq : tsLoop (line :: rest) acc = tsLoop rest acc := by
        simp [tsLoop, hinc]
      rw [heq]
      exact ih _ hacc

lemma tsLoop_at_origin (L : List String) :
    ∀ (acc : List String) (e : String), e ∈ tsLoop L acc → strStarts e "  at " = true →
      e ∈ acc ∨ ∃ pre line rest p, L = pre ++ line :: rest ∧
        jsIncludes line "[ERROR] TS" = true ∧ findLoc rest = some p ∧ e = "  at " ++ p := by
  induction L with
  | nil =>
    intro acc e he _
    exact Or.inl he
  | cons line rest ih =>
    intro acc e he hat
    by_cases hinc : jsIncludes line "[ERROR] TS" = true
    · have heq : tsLoop (line :: rest) acc =
          if (tsStep line rest acc).length ≥ 6 then tsStep line rest acc
          else tsLoop rest (tsStep line rest acc) := by
        simp only [tsLoop, hinc, if_true]
      rw [heq] at he
      have hstep : e ∈ tsStep line rest acc →
          e ∈ acc ∨ ∃ pre l' r' p, line :: rest = pre ++ l' :: r' ∧
            jsIncludes l' "[ERROR] TS" = true ∧ findLoc r' = some p ∧ e = "  at " ++ p := by
        intro hm
        rcases tsStep_mem_at line rest acc e hm hat with h | ⟨p, hp, hep⟩
        · exact Or.inl h
        · exact Or.inr ⟨[], line, rest, p, rfl, hinc, hp, hep⟩
      by_cases hlen : (tsStep line rest acc).length ≥ 6
      · rw [if_pos hlen] at he
        exact hstep he
      · rw [if_neg hlen] at he
        rcases ih _ _ he hat with h | ⟨pre, l', r', p, hdec, h1, h2, h3⟩
        · exact hstep h
        · exact Or.inr ⟨line :: pre, l', r', p, by rw [hdec]; rfl, h1, h2, h3⟩
    · have heq : tsLoop (line :: rest) acc = tsLoop rest acc := by
        simp [tsLoop, hinc]
      rw [heq] at he
      rcases ih _ _ he hat with h | ⟨pre, l', r', p, hdec, h1, h2, h3⟩
      · exact Or.inl h
      · exact Or.inr ⟨line :: pre, l', r', p, by rw [hdec]; rfl, h1, h2, h3⟩

/-- C6 (diagnostic extraction limit): when the failed test output has no
structured `TOTAL:` aggregate but carries compiler-diagnostic markers, the
classifier's failure text is built from the extracted diagnostic list; at
most six diagnostic messages are extracted, and every extracted location
entry comes from a matching `[ERROR] TS` line paired with the location
line that `findLoc` finds in the lookahead window after it. -/
theorem C6_diagnostic_limit (msg : String)
    (hsum : findTotal msg = none) (hcomp : hasCompilationError msg = true) :
    (tsErrorLines msg ≠ [] → testFailureReason msg = joinSep "\n" (tsErrorLines msg)) ∧
    ((tsErrorLines msg).filter (fun e => !strStarts e "  at ")).length ≤ 6 ∧
    (∀ e ∈ tsErrorLines msg, strStarts e "  at " = true →
      ∃ pre line rest p, jsLines msg = pre ++ line :: rest ∧
        jsIncludes line "[ERROR] TS" = true ∧ findLoc rest = some p ∧ e = "  at " ++ p) := by
  refine ⟨?_, ?_, ?_⟩
  · intro hne
    unfold testFailureReason
    rw [hsum]
    rw [if_pos hcomp]
    simp only []
    rw [if_pos (by simpa [List.length_pos] using hne)]
  · exact tsLoop_bound (jsLines msg) [] (by simp)
  · intro e he hat
    rcases tsLoop_at_origin (jsLines msg) [] e he hat with h | h
    · exact absurd h (List.not_mem_nil e)
    · exact h

/-- Witness for C6 at a concrete compile-error output with one diagnostic
and one location line. -/
theorem C6_diagnostic_limit_witness :
    ((tsErrorLines "[ERROR] TS2304: x\nsrc/f1.ts:3:1").filter
      (fun e => !strStarts e "  at ")).length ≤ 6 :=
  (C6_diagnostic_limit "[ERROR] TS2304: x\nsrc/f1.ts:3:1" (by decide) (by decide)).2.1

lemma strEnds_append_left (u v suf : String) (h : strEnds v suf = true) :
    strEnds (u ++ v) suf = true := by
  unfold strEnds at h ⊢
  rw [strDataAppend, List.reverse_append]
  obtain ⟨t, ht⟩ := (isPre_iff _ _).mp h
  rw [ht, List.append_assoc]
  exact isPre_append_self _ _

lemma splitCh_no_sep (sep : Char) : ∀ l : List Char, (∀ c ∈ l, c ≠ sep) →
    splitCh sep l = [l] := by
  intro l
  induction l with
  | nil => intro _; rfl
  | cons c rest ih =>
    intro h
    have hr := ih (fun c' hc' => h c' (List.mem_cons_of_mem _ hc'))
    simp only [splitCh, hr]
    rw [if_neg (h c (List.mem_cons_self c rest))]

lemma splitCh_last_ends (sep : Char) (suf : List Char) (hsuf : ∀ c ∈ suf, c ≠ sep) :
    ∀ l : List Char, isPre suf.reverse l.reverse = true →
      ∃ L x, splitCh sep l = L ++ [x] ∧ isPre suf.reverse x.reverse = true := by
  intro l
  induction l with
  | nil =>
    intro he
    obtain ⟨t, ht⟩ := (isPre_iff _ _).mp he
    have hs : suf.reverse = [] := (List.append_eq_nil.mp ht.symm).1
    refine ⟨[], [], rfl, ?_⟩
    rw [hs]
    rfl
  | cons c rest ih =>
    intro he
    by_cases hlen : suf.length ≤ rest.length
    · have hrest : isPre suf.reverse rest.reverse = true := by
        obtain ⟨t, ht⟩ := (isPre_iff _ _).mp he
        rw [List.reverse_cons] at ht
        rw [isPre_iff]
        refine ⟨rest.reverse.drop suf.reverse.length, ?_⟩
        have h1 : (rest.reverse ++ [c]).take suf.reverse.length =
            rest.reverse.take suf.reverse.length :=
          List.take_append_of_le_length (by simpa using hlen)
        have h2 : (suf.reverse ++ t).take suf.reverse.length = suf.reverse := List.take_left _ _
        rw [ht] at h1
        rw [h2] at h1
        conv_lhs => rw [← List.take_append_drop suf.reverse.length rest.reverse]
        rw [← h1]
      obtain ⟨L, x, hsp, hx⟩ := ih hrest
      cases hs : splitCh sep rest with
      | nil => exact absurd hs (splitCh_ne_nil sep rest)
      | cons h0 t0 =>
        rw [hs] at hsp
        by_cases hc : c = sep
        · refine ⟨[] :: L, x, ?_, hx⟩
          simp only [splitCh, hs, if_pos hc]
          rw [hsp]
          rfl
        · cases L with
          | nil =>
            injection hsp with e1 e2
            refine ⟨[], c :: x, ?_, ?_⟩
            · simp only [splitCh, hs, if_neg hc]
              rw [e1, e2]
              rfl
            · rw [isPre_iff] at hx ⊢
              obtain ⟨t, ht⟩ := hx
              rw [List.reverse_cons, ht, List.append_assoc]
              exact ⟨t ++ [c], rfl⟩
          | cons L0 Ls =>
            injection hsp with e1 e2
            refine ⟨(c :: h0) :: Ls, x, ?_, hx⟩
            simp only [splitCh, hs, if_neg hc]
            rw [e2]
            rfl
    · push_neg at hlen
      obtain ⟨t, ht⟩ := (isPre_iff _ _).mp he
      rw [List.reverse_cons] at ht
      have hlent : t = [] := by
        have hl := congrArg List.length ht
        simp at hl
        exact List.eq_nil_of_length_eq_zero (by omega)
      subst hlent
      have hrev : (c :: rest).reverse = suf.reverse := by
        rw [List.reverse_cons, ht, List.append_nil]
      have hls : c :: rest = suf := by
        have h2 := congrArg List.reverse hrev
        simpa using h2
      refine ⟨[], c :: rest, ?_, ?_⟩
      · rw [splitCh_no_sep sep (c :: rest) (fun c' hc' => hsuf c' (hls ▸ hc'))]
        rfl
      · rw [hrev]
        exact isPre_refl _

lemma joinSep_ends (sep suf : String) :
    ∀ (L : List String) (x : String), strEnds x suf = true →
      strEnds (joinSep sep (L ++ [x])) suf = true := by
  intro L
  induction L with
  | nil =>
    intro x hx
    exact hx
  | cons a L' ih =>
    intro x hx
    cases L' with
    | nil => exact strEnds_append_left _ _ _ hx
    | cons b t => exact strEnds_append_left _ _ _ (ih x hx)

lemma drop_append_le {α : Type} (x : α) : ∀ (L : List α) (i : Nat), i ≤ L.length →
    (L ++ [x]).drop i = L.drop i ++ [x] := by
  intro L
  induction L with
  | nil =>
    intro i hi
    have h0 : i = 0 := Nat.le_zero.mp hi
    subst h0
    rfl
  | cons a L' ih =>
    intro i hi
    cases i with
    | zero => rfl
    | succ j =>
      simp only [List.cons_append, List.drop_succ_cons]
      exact ih j (Nat.succ_le_succ_iff.mp hi)

lemma jsFindIndex_lt (p : String → Bool) : ∀ (l : List String) (i : Nat),
    jsFindIndex p l = some i → i < l.length := by
  intro l
  induction l with
  | nil =>
    intro i h
    exact absurd h (by simp [jsFindIndex])
  | cons a rest ih =>
    intro i h
    unfold jsFindIndex at h
    by_cases hp : p a = true
    · rw [if_pos hp] at h
      injection h with h1
      rw [← h1]
      simp
    · rw [if_neg hp] at h
      cases hj : jsFindIndex p rest with
      | none =>
        rw [hj] at h
        exact absurd h (by simp)
      | some j =>
        rw [hj] at h
        simp only [Option.map_some'] at h
        injection h with h1
        have := ih j hj
        simp only [List.length_cons]
        omega

lemma normalizeLintPath_endsTs (p : String) (hp : strEnds p ".ts" = true) :
    strEnds (normalizeLintPath p) ".ts" = true := by
  unfold normalizeLintPath
  by_cases hb : jsIncludes p "\\" = true
  · rw [if_pos hb]
    simp only []
    obtain ⟨L, x, hsp, hx⟩ := splitCh_last_ends '\\' ".ts".data (by decide) p.data hp
    cases hidx : jsFindIndex (fun part => decide (part = "src")) (splitStr '\\' p) with
    | none => exact hp
    | some i =>
      simp only []
      have hilt : i < (splitStr '\\' p).length := jsFindIndex_lt _ _ _ hidx
      have hparts : splitStr '\\' p = L.map (fun l => (⟨l⟩ : String)) ++ [⟨x⟩] := by
        unfold splitStr
        rw [hsp, List.map_append]
        rfl
      rw [hparts] at hilt ⊢
      have hile : i ≤ (L.map (fun l => (⟨l⟩ : String))).length := by
        rw [List.length_append, List.length_singleton] at hilt
        omega
      rw [drop_append_le _ _ _ hile]
      exact joinSep_ends "/" ".ts" _ _ hx
  · rw [if_neg hb]
    exact hp

lemma sufLenTs_eq (l : List Char) (s : Nat) (hs : sufLenTs l = some s) :
    isPre ".ts".data l = true ∧ s = 3 := by
  unfold sufLenTs at hs
  by_cases hp : isPre ".ts".data l = true
  · rw [if_pos hp] at hs
    injection hs with h2
    exact ⟨hp, h2.symm⟩
  · rw [if_neg hp] at hs
    exact absurd hs (by simp)

lemma take_ts_split (run : List Char) (k : Nat)
    (hp : isPre ".ts".data (run.drop k) = true) :
    run.take (k + 3) = run.take k ++ ['.', 't', 's'] := by
  obtain ⟨t2, ht2⟩ := (isPre_iff _ _).mp hp
  rw [List.take_add, ht2]
  have h3 : (".ts".data : List Char) = ['.', 't', 's'] := by decide
  rw [h3]
  rfl

lemma tryLintAlt1_ends (l m : List Char) (h : tryLintAlt1 l = some m) :
    ∃ X, m = X ++ ['.', 't', 's'] := by
  unfold tryLintAlt1 at h
  cases l with
  | nil => exact absurd h (by simp)
  | cons c1 l1 =>
    cases l1 with
    | nil => exact absurd h (by simp)
    | cons c2 l2 =>
      cases l2 with
      | nil => exact absurd h (by simp)
      | cons c3 rest =>
        simp only [] at h
        by_cases hcond : (decide ('A' ≤ c1) && decide (c1 ≤ 'Z') &&
            decide (c2 = ':') && decide (c3 = '\\')) = true
        · rw [if_pos hcond] at h
          cases hb : bestK (rest.takeWhile (fun c => decide (c ≠ ':'))) sufLenTs with
          | none => rw [hb] at h; exact absurd h (by simp)
          | some k =>
            rw [hb] at h
            simp only [] at h
            cases hs : sufLenTs ((rest.takeWhile (fun c => decide (c ≠ ':'))).drop k) with
            | none => rw [hs] at h; exact absurd h (by simp)
            | some s =>
              rw [hs] at h
              simp only [] at h
              injection h with h1
              obtain ⟨hp, rfl⟩ := sufLenTs_eq _ _ hs
              refine ⟨c1 :: c2 :: c3 :: (rest.takeWhile (fun c => decide (c ≠ ':'))).take k, ?_⟩
              rw [← h1, take_ts_split _ _ hp]
              rfl
        · rw [if_neg hcond] at h
          exact absurd h (by simp)

lemma tryLintAlt2_ends (l m : List Char) (h : tryLintAlt2 l = some m) :
    ∃ X, m = X ++ ['.', 't', 's'] := by
  unfold tryLintAlt2 at h
  by_cases hpre : isPre "src/".data l = true
  · rw [if_pos hpre] at h
    simp only [] at h
    cases hb : bestK ((l.drop 4).takeWhile (fun c => decide (c ≠ ':'))) sufLenTs with
    | none => rw [hb] at h; exact absurd h (by simp)
    | some k =>
      rw [hb] at h
      simp only [] at h
      cases hs : sufLenTs (((l.drop 4).takeWhile (fun c => decide (c ≠ ':'))).drop k) with
      | none => rw [hs] at h; exact absurd h (by simp)
      | some s =>
        rw [hs] at h
        simp only [] at h
        injection h with h1
        obtain ⟨hp, rfl⟩ := sufLenTs_eq _ _ hs
        refine ⟨"src/".data ++ ((l.drop 4).takeWhile (fun c => decide (c ≠ ':'))).take k, ?_⟩
        rw [← h1, take_ts_split _ _ hp]
        rw [List.append_assoc]
  · rw [if_neg hpre] at h
    exact absurd h (by simp)

lemma firstLintMatch_ends : ∀ (l m : List Char), firstLintMatch l = some m →
    ∃ X, m = X ++ ['.', 't', 's'] := by
  intro l
  induction l with
  | nil =>
    intro m h
    exact absurd h (by simp [firstLintMatch])
  | cons c rest ih =>
    intro m h
    unfold firstLintMatch at h
    cases h1 : tryLintAlt1 (c :: rest) with
    | some m1 =>
      rw [h1] at h
      injection h with h2
      exact h2 ▸ tryLintAlt1_ends _ _ h1
    | none =>
      rw [h1] at h
      cases h2 : tryLintAlt2 (c :: rest) with
      | some m2 =>
        rw [h2] at h
        injection h with h3
        exact h3 ▸ tryLintAlt2_ends _ _ h2
      | none =>
        rw [h2] at h
        exact ih m h

lemma lintFailedFiles_fold_mem (lns : List String) :
    ∀ (acc : List String) (x : String),
      x ∈ lns.foldl
        (fun acc line =>
          match firstLintMatch line.data with
          | some m => addIfNew acc (normalizeLintPath ⟨m⟩)
          | none => acc)
        acc →
      x ∈ acc ∨ ∃ line ∈ lns, ∃ m, firstLintMatch line.data = some m ∧
        x = normalizeLintPath ⟨m⟩ := by
  induction lns with
  | nil =>
    intro acc x hx
    exact Or.inl hx
  | cons ln lns ih =>
    intro acc x hx
    rw [List.foldl_cons] at hx
    rcases ih _ _ hx with h | ⟨ln', h1, m, h2, h3⟩
    · cases hm : firstLintMatch ln.data with
      | some m =>
        rw [hm] at h
        simp only [] at h
        unfold addIfNew at h
        by_cases hmem : normalizeLintPath ⟨m⟩ ∈ acc
        · rw [if_pos hmem] at h
          exact Or.inl h
        · rw [if_neg hmem] at h
          rcases List.mem_append.mp h with h | h
          · exact Or.inl h
          · exact Or.inr ⟨ln, List.mem_cons_self _ _, m, hm, List.mem_singleton.mp h⟩
      | none =>
        rw [hm] at h
        simp only [] at h
        exact Or.inl h
    · exact Or.inr ⟨ln', List.mem_cons_of_mem _ h1, m, h2, h3⟩

/-- Every path in the extracted lint failed-file set ends in `.ts`. -/
lemma lintFailedFiles_ends (out p : String) (hp : p ∈ lintFailedFiles out) :
    strEnds p ".ts" = true := by
  unfold lintFailedFiles at hp
  rcases lintFailedFiles_fold_mem _ _ _ hp with h | ⟨_, _, m, hm, rfl⟩
  · exact absurd h (List.not_mem_nil p)
  · obtain ⟨X, hX⟩ := firstLintMatch_ends _ _ hm
    apply normalizeLintPath_endsTs
    unfold strEnds
    rw [strMk_data, hX, List.reverse_append]
    have hrev : (['.', 't', 's'] : List Char).reverse = ['s', 't', '.'] := by decide
    rw [hrev]
    exact isPre_append_self _ _

lemma ends_html_not_ts (f : String) (h1 : strEnds f ".html" = true)
    (h2 : strEnds f ".ts" = true) : False := by
  unfold strEnds at h1 h2
  obtain ⟨t1, ht1⟩ := (isPre_iff _ _).mp h1
  obtain ⟨t2, ht2⟩ := (isPre_iff _ _).mp h2
  have e1 : (".html".data.reverse : List Char) = ['l', 'm', 't', 'h', '.'] := by decide
  have e2 : (".ts".data.reverse : List Char) = ['s', 't', '.'] := by decide
  rw [e1] at ht1
  rw [e2] at ht2
  rw [ht1] at ht2
  injection ht2 with hc _
  exact absurd hc (by decide)

lemma lintFailStep_frame (fs : FS) (now : Nat) (ff : List String) (reason : String)
    (c : CacheMap) (g f : String) (hne : g ≠ f) :
    cacheGet (lintFailStep fs now ff reason c g) ("lint:" ++ f) =
      cacheGet c ("lint:" ++ f) := by
  unfold lintFailStep
  cases hh : getFileHash fs g with
  | none => rfl
  | some hv =>
    simp only []
    exact cacheGet_set_ne _ _ _ _
      (fun he => hne (strAppend_left_cancel "lint:" _ _ he).symm)

lemma lintFold_frame (fs : FS) (now : Nat) (ff : List String) (reason : String)
    (att : List String) (f : String) (hf : f ∉ att) :
    ∀ c : CacheMap,
      cacheGet (att.foldl (lintFailStep fs now ff reason) c) ("lint:" ++ f) =
        cacheGet c ("lint:" ++ f) := by
  induction att with
  | nil => intro c; rfl
  | cons a rest ih =>
    intro c
    rw [List.foldl_cons]
    rw [ih (fun hm => hf (List.mem_cons_of_mem _ hm))]
    exact lintFailStep_frame fs now ff reason c a f
      (fun he => hf (he ▸ List.mem_cons_self a rest))

lemma lintFold_get (fs : FS) (now : Nat) (ff : List String) (reason : String)
    (att : List String) :
    ∀ (c : CacheMap) (f : String) (h : String), f ∈ att → getFileHash fs f = some h →
      cacheGet (att.foldl (lintFailStep fs now ff reason) c) ("lint:" ++ f) =
        some ⟨some h, if decide (f ∈ ff) = true then .failed else .passed, now,
          if decide (f ∈ ff) = true then some reason else none⟩ := by
  induction att with
  | nil =>
    intro c f h hf
    exact absurd hf (List.not_mem_nil f)
  | cons a rest ih =>
    intro c f h hf hh
    rw [List.foldl_cons]
    by_cases hfr : f ∈ rest
    · exact ih _ f h hfr hh
    · have hfa : f = a := by
        rcases List.mem_cons.mp hf with h' | h'
        · exact h'
        · exact absurd h' hfr
      subst hfa
      rw [lintFold_frame fs now ff reason rest f hfr]
      unfold lintFailStep
      rw [hh]
      simp only []
      exact cacheGet_set_self _ _ _

/-- C5 counterexample: lint output that literally references an attempted
`.html` file still leads to that file's entry being written as passed —
`.html` paths are never extracted into the failed-file set, refuting
"every referenced file path is extracted". -/
theorem C5_lint_attribution_counterexample :
    jsIncludes "src/app/foo.html 1:1 error something" "src/app/foo.html" = true ∧
    lintFailedFiles "src/app/foo.html 1:1 error something" = [] ∧
    cacheGet (handleLintFailure ⟨fun _ => true, fun _ => some "h"⟩ 0
        "src/app/foo.html 1:1 error something" ["src/app/foo.html"] []).1
      "lint:src/app/foo.html" = some ⟨some "h", .passed, 0, none⟩ := by
  refine ⟨by decide, by decide, by decide⟩

/-- C5 amended: after a failed lint process, the failed-file set contains
only `.ts` paths (either separator convention, Windows paths normalized at
the `src` segment); each attempted lint file with a readable hash gets its
`lint:` entry written failed exactly when its path is in that set and
passed (with no error text) otherwise — so an attempted `.html` target is
never in the set and is always written passed. -/
theorem C5_lint_attribution (fs : FS) (now : Nat) (out : String)
    (attempted : List String) (cache : CacheMap) (f : String) (h : String)
    (hf : f ∈ attempted) (hh : getFileHash fs f = some h) :
    cacheGet (handleLintFailure fs now out attempted cache).1 ("lint:" ++ f) =
      some ⟨some h, if f ∈ lintFailedFiles out then .failed else .passed, now,
        if f ∈ lintFailedFiles out then some (lintFailureReason out) else none⟩ ∧
    (strEnds f ".html" = true → f ∉ lintFailedFiles out) := by
  constructor
  · unfold handleLintFailure
    simp only []
    rw [lintFold_get fs now _ _ attempted cache f h hf hh]
    by_cases hmem : f ∈ lintFailedFiles out
    · simp [hmem]
    · simp [hmem]
  · intro hhtml hmem
    exact ends_html_not_ts f hhtml (lintFailedFiles_ends out f hmem)

/-- Witness for the amended C5: a run attempting a `.ts` file (named in
the output) and an `.html` file (also named); the `.html` entry is passed. -/
theorem C5_lint_attribution_witness :
    cacheGet (handleLintFailure ⟨fun _ => true, fun _ => some "h"⟩ 0
        "src/app/x.ts 1:1  error  no-unused-vars\nsrc/app/y.html 2:2 error bad"
        ["src/app/x.ts", "src/app/y.html"] []).1 ("lint:" ++ "src/app/y.html") =
      some ⟨some "h",
        if "src/app/y.html" ∈ lintFailedFiles
          "src/app/x.ts 1:1  error  no-unused-vars\nsrc/app/y.html 2:2 error bad"
        then .failed else .passed, 0,
        if "src/app/y.html" ∈ lintFailedFiles
          "src/app/x.ts 1:1  error  no-unused-vars\nsrc/app/y.html 2:2 error bad"
        then some (lintFailureReason
          "src/app/x.ts 1:1  error  no-unused-vars\nsrc/app/y.html 2:2 error bad") else none⟩ ∧
    (strEnds "src/app/y.html" ".html" = true →
      "src/app/y.html" ∉ lintFailedFiles
        "src/app/x.ts 1:1  error  no-unused-vars\nsrc/app/y.html 2:2 error bad") :=
  C5_lint_attribution ⟨fun _ => true, fun _ => some "h"⟩ 0
    "src/app/x.ts 1:1  error  no-unused-vars\nsrc/app/y.html 2:2 error bad"
    ["src/app/x.ts", "src/app/y.html"] [] "src/app/y.html" "h" (by decide) rfl
